import Mathlib

/-!
Verification of the entity reconciliation and mapping engine of
`presidio-anonymizer-nestjs` (file `src/anonymizer.service.ts`).

Texts are modelled as `List Char` (`Str`).  The JavaScript `Map` that backs
the mapping table is modelled as an association list with JS `Map` semantics
(insertion order preserved, `set` on an existing key updates in place).
`Array.prototype.sort`, which ECMAScript requires to be stable, is modelled
by a stable insertion sort.  The global regex replacement
`result.replace(new RegExp(escaped, "g"), entity.original)` in
`deanonymizeText` is modelled by a left-to-right scan that matches the
placeholder literally (the source escapes every regex metacharacter of the
pattern) and that expands the ECMAScript dollar patterns of the replacement
string exactly as `String.prototype.replace` does.
-/

abbrev Str := List Char

/-- Boolean test that `p` is a leading segment of `s`. -/
def headOf : Str → Str → Bool
  | [], _ => true
  | _ :: _, [] => false
  | a :: u, b :: v => a == b && headOf u v

theorem headOf_iff (p s : Str) : headOf p s = true ↔ ∃ t, s = p ++ t := by
  induction p generalizing s with
  | nil => simp [headOf]
  | cons a u ih =>
    cases s with
    | nil => simp [headOf]
    | cons b v =>
      simp only [headOf, Bool.and_eq_true, beq_iff_eq, ih]
      constructor
      · rintro ⟨rfl, t, rfl⟩; exact ⟨t, rfl⟩
      · rintro ⟨t, h⟩
        cases h
        exact ⟨rfl, t, rfl⟩

/-- There is an occurrence of `p` inside `s` (as a contiguous block). -/
def occP (p s : Str) : Prop := ∃ i, headOf p (s.drop i) = true

/-- Boolean version of `occP`. -/
def occB (p s : Str) : Bool := (List.range (s.length + 1)).any (fun i => headOf p (s.drop i))

theorem occB_iff (p s : Str) : occB p s = true ↔ occP p s := by
  simp only [occB, List.any_eq_true, List.mem_range]
  constructor
  · rintro ⟨i, _, h⟩; exact ⟨i, h⟩
  · rintro ⟨i, h⟩
    by_cases hi : i < s.length + 1
    · exact ⟨i, hi, h⟩
    · refine ⟨s.length, by omega, ?_⟩
      have hdrop : s.drop i = [] := List.drop_eq_nil_of_le (by omega)
      have hdrop2 : s.drop s.length = [] := List.drop_eq_nil_of_le le_rfl
      rw [hdrop] at h; rw [hdrop2]; exact h

/-- The dollar sign character of ECMAScript replacement patterns. -/
def dollarChar : Char := Char.ofNat 36

/-- The ampersand character. -/
def ampChar : Char := Char.ofNat 38

/-- The backquote character. -/
def backChar : Char := Char.ofNat 96

/-- The single quote character. -/
def quoteChar : Char := Char.ofNat 39

/-- Expansion of the ECMAScript special replacement patterns of
`String.prototype.replace`: with no capture groups in the pattern the
recognised pairs are dollar-dollar, dollar-ampersand (the matched text),
dollar-backquote (the part of the subject before the match) and
dollar-quote (the part after the match); anything else is literal. -/
def dollarExpand (matched before after : Str) : Str → Str
  | [] => []
  | [c] => [c]
  | c :: d :: rest =>
    if c = dollarChar then
      if d = dollarChar then dollarChar :: dollarExpand matched before after rest
      else if d = ampChar then matched ++ dollarExpand matched before after rest
      else if d = backChar then before ++ dollarExpand matched before after rest
      else if d = quoteChar then after ++ dollarExpand matched before after rest
      else c :: dollarExpand matched before after (d :: rest)
    else c :: dollarExpand matched before after (d :: rest)

/-- `true` when the string contains none of the special dollar pairs, so that
it is inserted literally by `String.prototype.replace`. -/
def noSpecialDollar : Str → Bool
  | [] => true
  | [_] => true
  | c :: d :: rest =>
    if c = dollarChar && (d = dollarChar || d = ampChar || d = backChar || d = quoteChar) then false
    else noSpecialDollar (d :: rest)

theorem dollarExpand_of_noSpecial (matched before after : Str) :
    ∀ r : Str, noSpecialDollar r = true → dollarExpand matched before after r = r := by
  intro r
  induction r with
  | nil => intro _; rfl
  | cons c rest ih =>
    cases rest with
    | nil => intro _; rfl
    | cons d rest2 =>
      intro h
      simp only [noSpecialDollar] at h
      by_cases hc : c = dollarChar
      · have hd : ¬ (d = dollarChar ∨ d = ampChar ∨ d = backChar ∨ d = quoteChar) := by
          intro hor
          rw [if_pos] at h
          · exact Bool.false_ne_true h
          · simp [hc]
            rcases hor with h1 | h1 | h1 | h1 <;> simp [h1]
        have hrest : noSpecialDollar (d :: rest2) = true := by
          rwa [if_neg] at h
          simp [hc]
          tauto
        simp only [dollarExpand, if_pos hc]
        rw [if_neg, if_neg, if_neg, if_neg]
        · rw [ih hrest]
        all_goals intro h1; exact hd (by tauto)
      · have hrest : noSpecialDollar (d :: rest2) = true := by
          rwa [if_neg] at h
          simp [hc]
        simp only [dollarExpand, if_neg hc]
        rw [ih hrest]

/-- Literal global replacement of every occurrence of `p` by `r`, scanning
left to right and not rescanning the inserted text.  This is the behaviour of
the source replacement when the replacement string contains no special dollar
pattern. -/
def literalReplace (p r : Str) : Str → Str
  | [] => []
  | c :: s =>
    if p ≠ [] ∧ headOf p (c :: s) = true then
      r ++ literalReplace p r ((c :: s).drop p.length)
    else c :: literalReplace p r s
termination_by s => s.length
decreasing_by
  · simp only [List.length_drop, List.length_cons]
    have : p.length ≠ 0 := by
      intro h0
      exact (by assumption : p ≠ [] ∧ headOf p (c :: s) = true).1 (List.eq_nil_of_length_eq_zero h0)
    omega
  · simp

/-- The scan implementing `result.replace(new RegExp(escaped, "g"), repl)`:
`consumed` is the already scanned part of the subject string, used for the
dollar-backquote pattern.  The fuel argument, structurally decreasing, only
bounds the recursion; every step consumes at least one character of the
remaining string, so fuel equal to its length is always enough. -/
def replaceScanAux (p repl : Str) : Nat → Str → Str → Str
  | 0, _, _ => []
  | _ + 1, _, [] => []
  | fuel + 1, consumed, c :: rest =>
    if p ≠ [] ∧ headOf p (c :: rest) = true then
      dollarExpand p consumed ((c :: rest).drop p.length) repl ++
        replaceScanAux p repl fuel (consumed ++ p) ((c :: rest).drop p.length)
    else c :: replaceScanAux p repl fuel (consumed ++ [c]) rest

/-- Global replacement of the escaped pattern `p` by the replacement string
`repl`, as performed by each step of `deanonymizeText` in the source. -/
def replaceAll (p repl s : Str) : Str := replaceScanAux p repl s.length [] s

theorem replaceScanAux_eq_literalReplace (p repl : Str) (h : noSpecialDollar repl = true) :
    ∀ (n : Nat) (s consumed : Str), s.length ≤ n →
      replaceScanAux p repl n consumed s = literalReplace p repl s := by
  intro n
  induction n with
  | zero =>
    intro s consumed hl
    have : s = [] := List.eq_nil_of_length_eq_zero (by omega)
    subst this
    simp [replaceScanAux, literalReplace]
  | succ n ih =>
    intro s consumed hl
    cases s with
    | nil => simp [replaceScanAux, literalReplace]
    | cons c rest =>
      by_cases hc : p ≠ [] ∧ headOf p (c :: rest) = true
      · rw [replaceScanAux, if_pos hc, literalReplace, if_pos hc,
          dollarExpand_of_noSpecial _ _ _ _ h]
        congr 1
        apply ih
        simp only [List.length_drop, List.length_cons]
        have : p.length ≠ 0 := by
          intro h0
          exact hc.1 (List.eq_nil_of_length_eq_zero h0)
        simp only [List.length_cons] at hl
        omega
      · rw [replaceScanAux, if_neg hc, literalReplace, if_neg hc]
        congr 1
        apply ih
        simp only [List.length_cons] at hl
        omega

theorem replaceAll_eq_literalReplace (p repl s : Str) (h : noSpecialDollar repl = true) :
    replaceAll p repl s = literalReplace p repl s :=
  replaceScanAux_eq_literalReplace p repl h s.length s [] le_rfl

theorem occP_cons (p : Str) (c : Char) (s : Str) (h : occP p s) : occP p (c :: s) := by
  obtain ⟨i, hi⟩ := h
  exact ⟨i + 1, by simpa using hi⟩

theorem mem_of_getElemOpt {α : Type} {l : List α} {i : Nat} {a : α} (h : l[i]? = some a) :
    a ∈ l := by
  obtain ⟨hlt, he⟩ := List.getElem?_eq_some.mp h
  exact he ▸ List.getElem_mem hlt

theorem literalReplace_of_not_occ (p r : Str) : ∀ s, ¬ occP p s → literalReplace p r s = s := by
  intro s
  induction s with
  | nil => intro _; simp [literalReplace]
  | cons c s ih =>
    intro h
    rw [literalReplace, if_neg, ih]
    · intro hs; exact h (occP_cons p c s hs)
    · rintro ⟨-, hhead⟩
      exact h ⟨0, by simpa using hhead⟩

theorem literalReplace_skip (p r : Str) :
    ∀ u v, (∀ i, i < u.length → ¬ headOf p ((u ++ v).drop i) = true) →
      literalReplace p r (u ++ v) = u ++ literalReplace p r v := by
  intro u
  induction u with
  | nil => intro v _; simp
  | cons c u ih =>
    intro v hu
    have hrec : literalReplace p r (u ++ v) = u ++ literalReplace p r v := by
      apply ih
      intro i hi
      have := hu (i + 1) (by simpa using Nat.succ_lt_succ hi)
      simpa using this
    have hni : ¬ (p ≠ [] ∧ headOf p (c :: (u ++ v)) = true) := by
      rintro ⟨-, hhead⟩
      have h0 := hu 0 (by simp)
      simp only [List.drop_zero, List.cons_append] at h0
      exact h0 hhead
    rw [List.cons_append, literalReplace, if_neg hni, hrec]
    simp

theorem literalReplace_at (p r v : Str) (hp : p ≠ []) :
    literalReplace p r (p ++ v) = r ++ literalReplace p r v := by
  cases p with
  | nil => exact absurd rfl hp
  | cons c q =>
    rw [List.cons_append, literalReplace, if_pos]
    · rw [← List.cons_append, List.drop_left]
    · exact ⟨hp, (headOf_iff _ _).mpr ⟨v, by simp⟩⟩

theorem sepInj (sep : Char) :
    ∀ (u v t w : Str), sep ∉ u → sep ∉ v → u ++ sep :: t = v ++ sep :: w →
      u = v ∧ t = w := by
  intro u
  induction u with
  | nil =>
    intro v t w _ hv heq
    cases v with
    | nil => simpa using heq
    | cons b v2 =>
      simp only [List.nil_append, List.cons_append, List.cons.injEq] at heq
      exact absurd (heq.1 ▸ List.mem_cons_self b v2) (heq.1 ▸ hv)
  | cons a u2 ih =>
    intro v t w hu hv heq
    cases v with
    | nil =>
      simp only [List.cons_append, List.nil_append, List.cons.injEq] at heq
      exact absurd (heq.1 ▸ List.mem_cons_self a u2) (heq.1 ▸ hu)
    | cons b v2 =>
      simp only [List.cons_append, List.cons.injEq] at heq
      obtain ⟨rfl, heq2⟩ := heq
      obtain ⟨h1, h2⟩ := ih v2 t w (fun hm => hu (List.mem_cons_of_mem _ hm))
        (fun hm => hv (List.mem_cons_of_mem _ hm)) heq2
      exact ⟨by rw [h1], h2⟩

/-- Part of a bracket-shaped placeholder after the opening bracket: interior
characters that are neither bracket, closed by a single closing bracket. -/
def bracketTail : Str → Bool
  | [] => false
  | [c] => c == ']'
  | c :: d :: rest => decide (c ≠ '[') && decide (c ≠ ']') && bracketTail (d :: rest)

/-- A placeholder of the shape used by the service: an opening bracket, an
interior free of brackets, and a final closing bracket. -/
def bracketShapedB : Str → Bool
  | [] => false
  | c :: rest => c == '[' && bracketTail rest

theorem bracketTail_shape :
    ∀ p, bracketTail p = true → ∃ ip, p = ip ++ [']'] ∧ '[' ∉ ip ∧ ']' ∉ ip := by
  intro p
  induction p with
  | nil => intro h; exact absurd h (by simp [bracketTail])
  | cons c rest ih =>
    intro h
    cases rest with
    | nil =>
      refine ⟨[], ?_, by simp, by simp⟩
      simp only [bracketTail, beq_iff_eq] at h
      simp [h]
    | cons d rest2 =>
      simp only [bracketTail, Bool.and_eq_true, decide_eq_true_eq] at h
      obtain ⟨⟨hc1, hc2⟩, htail⟩ := h
      obtain ⟨ip, hip, hm1, hm2⟩ := ih htail
      refine ⟨c :: ip, by simp [hip], ?_, ?_⟩
      · simp only [List.mem_cons, not_or]
        exact ⟨fun he => hc1 he.symm, hm1⟩
      · simp only [List.mem_cons, not_or]
        exact ⟨fun he => hc2 he.symm, hm2⟩

theorem bracketShapedB_shape (p : Str) (h : bracketShapedB p = true) :
    ∃ ip, p = '[' :: (ip ++ [']']) ∧ '[' ∉ ip ∧ ']' ∉ ip := by
  cases p with
  | nil => exact absurd h (by simp [bracketShapedB])
  | cons c rest =>
    simp only [bracketShapedB, Bool.and_eq_true, beq_iff_eq] at h
    obtain ⟨ip, hip, hm1, hm2⟩ := bracketTail_shape rest h.2
    exact ⟨ip, by rw [h.1, hip], hm1, hm2⟩

theorem bracketShapedB_ne_nil (p : Str) (h : bracketShapedB p = true) : p ≠ [] := by
  obtain ⟨ip, hip, -, -⟩ := bracketShapedB_shape p h
  simp [hip]

theorem bracket_no_inner_open (p : Str) (h : bracketShapedB p = true) :
    ∀ j, 1 ≤ j → p[j]? ≠ some '[' := by
  obtain ⟨ip, hip, hm1, -⟩ := bracketShapedB_shape p h
  intro j hj hcontra
  subst hip
  cases j with
  | zero => omega
  | succ j2 =>
    rw [List.getElem?_cons_succ] at hcontra
    have : '[' ∈ ip ++ [']'] := mem_of_getElemOpt hcontra
    simp only [List.mem_append, List.mem_singleton] at this
    rcases this with h1 | h1
    · exact hm1 h1
    · exact absurd h1 (by decide)

theorem occP_slice (p T : Str) (a b : Nat) (hp : p ≠ [])
    (h : occP p ((T.take b).drop a)) : occP p T := by
  obtain ⟨i, hi⟩ := h
  rw [List.drop_drop] at hi
  obtain ⟨t, ht⟩ := (headOf_iff _ _).mp hi
  refine ⟨a + i, (headOf_iff _ _).mpr ⟨t ++ T.drop b, ?_⟩⟩
  have hlt : a + i < (T.take b).length := by
    by_contra hge
    push_neg at hge
    rw [List.drop_eq_nil_of_le hge] at ht
    cases p with
    | nil => exact hp rfl
    | cons c q => simp at ht
  have hsplit : T.drop (a + i) =
      (T.take b).drop (a + i) ++ (T.drop b).drop (a + i - (T.take b).length) := by
    conv_lhs => rw [← List.take_append_drop b T]
    rw [List.drop_append_eq_append_drop]
  have hz : a + i - (T.take b).length = 0 := by omega
  rw [hsplit, ht, hz, List.drop_zero, List.append_assoc]

theorem not_headOf_within_bracket (p y w : Str) (hp : bracketShapedB p = true)
    (hy : bracketShapedB y = true) (hne : p ≠ y) :
    ∀ i, i < y.length → ¬ headOf p ((y ++ w).drop i) = true := by
  obtain ⟨ip, hip, hip1, hip2⟩ := bracketShapedB_shape p hp
  obtain ⟨iy, hiy, hiy1, hiy2⟩ := bracketShapedB_shape y hy
  intro i hi hhead
  obtain ⟨t, ht⟩ := (headOf_iff _ _).mp hhead
  cases i with
  | zero =>
    rw [List.drop_zero] at ht
    rw [hip, hiy] at ht
    simp only [List.cons_append, List.cons.injEq, List.append_assoc,
      List.singleton_append] at ht
    obtain ⟨h1, -⟩ := sepInj ']' iy ip w t hiy2 hip2 ht.2
    exact hne (by rw [hip, hiy, h1])
  | succ i2 =>
    have hhd : ((y ++ w).drop (i2 + 1)).head? = some '[' := by
      rw [ht, hip]
      simp
    rw [List.head?_drop] at hhd
    rw [List.getElem?_append_left (by omega : i2 + 1 < y.length)] at hhd
    exact bracket_no_inner_open y hy (i2 + 1) (by omega) hhd

theorem not_headOf_within_frag (p g y w : Str) (hp : bracketShapedB p = true)
    (hy : bracketShapedB y = true) (hg : ¬ occP p g) :
    ∀ i, i < g.length → ¬ headOf p ((g ++ (y ++ w)).drop i) = true := by
  intro i hi hhead
  have hdrop : (g ++ (y ++ w)).drop i = g.drop i ++ (y ++ w) := by
    rw [List.drop_append_eq_append_drop]
    have h0 : i - g.length = 0 := by omega
    rw [h0, List.drop_zero]
  rw [hdrop] at hhead
  obtain ⟨t, ht⟩ := (headOf_iff _ _).mp hhead
  by_cases hle : p.length ≤ (g.drop i).length
  · apply hg
    refine ⟨i, (headOf_iff _ _).mpr ⟨(g.drop i).drop p.length, ?_⟩⟩
    have htake := congrArg (List.take p.length) ht
    have h1 : p.length - (g.drop i).length = 0 := by omega
    rw [List.take_append_eq_append_take, List.take_left, h1, List.take_zero,
      List.append_nil] at htake
    conv_lhs => rw [← List.take_append_drop p.length (g.drop i)]
    rw [htake]
  · push_neg at hle
    have hslen : 0 < (g.drop i).length := by rw [List.length_drop]; omega
    have hdrop2 := congrArg (List.drop (g.drop i).length) ht
    rw [List.drop_left] at hdrop2
    rw [List.drop_append_eq_append_drop] at hdrop2
    have h0 : (g.drop i).length - p.length = 0 := by omega
    rw [h0, List.drop_zero] at hdrop2
    have hznil : p.drop (g.drop i).length ≠ [] := by
      apply List.ne_nil_of_length_pos
      rw [List.length_drop]
      omega
    obtain ⟨iy, hiy, -, -⟩ := bracketShapedB_shape y hy
    have hz : (p.drop (g.drop i).length).head? = some '[' := by
      have hzhead : (p.drop (g.drop i).length).head? =
          (p.drop (g.drop i).length ++ t).head? := by
        cases hcc : p.drop (g.drop i).length with
        | nil => exact absurd hcc hznil
        | cons z0 zs => simp
      rw [hzhead, ← hdrop2, hiy]
      simp
    rw [List.head?_drop] at hz
    exact bracket_no_inner_open p hp (g.drop i).length (by omega) hz

theorem not_occ_glue (p g y w : Str) (hp : bracketShapedB p = true)
    (hy : bracketShapedB y = true) (hne : p ≠ y)
    (hg : ¬ occP p g) (hw : ¬ occP p w) : ¬ occP p (g ++ y ++ w) := by
  rintro ⟨i, hi⟩
  rw [List.append_assoc] at hi
  rcases lt_or_ge i g.length with hlt | hge
  · exact not_headOf_within_frag p g y w hp hy hg i hlt hi
  · rw [List.drop_append_eq_append_drop, List.drop_eq_nil_of_le hge,
      List.nil_append] at hi
    rcases lt_or_ge (i - g.length) y.length with hlt2 | hge2
    · exact not_headOf_within_bracket p y w hp hy hne (i - g.length) hlt2 hi
    · rw [List.drop_append_eq_append_drop, List.drop_eq_nil_of_le hge2,
        List.nil_append] at hi
      exact hw ⟨i - g.length - y.length, hi⟩

theorem literalReplace_glue_skip (p r g y w : Str) (hp : bracketShapedB p = true)
    (hy : bracketShapedB y = true) (hne : p ≠ y) (hg : ¬ occP p g) :
    literalReplace p r (g ++ y ++ w) = g ++ y ++ literalReplace p r w := by
  rw [List.append_assoc, List.append_assoc, ← List.append_assoc g y,
    ← List.append_assoc g y]
  apply literalReplace_skip
  intro i hi
  rw [List.append_assoc]
  simp only [List.length_append] at hi
  rcases lt_or_ge i g.length with hlt | hge
  · exact not_headOf_within_frag p g y w hp hy hg i hlt
  · intro hhead
    rw [List.drop_append_eq_append_drop, List.drop_eq_nil_of_le hge,
      List.nil_append] at hhead
    exact not_headOf_within_bracket p y w hp hy hne (i - g.length) (by omega) hhead

theorem literalReplace_glue_hit (p r g w : Str) (hp : bracketShapedB p = true)
    (hg : ¬ occP p g) (hw : ¬ occP p w) :
    literalReplace p r (g ++ p ++ w) = g ++ r ++ w := by
  have hstep1 : literalReplace p r (g ++ (p ++ w)) = g ++ literalReplace p r (p ++ w) :=
    literalReplace_skip p r g (p ++ w)
      (fun i hi => not_headOf_within_frag p g p w hp hp hg i hi)
  rw [List.append_assoc, hstep1, literalReplace_at p r w (bracketShapedB_ne_nil p hp),
    literalReplace_of_not_occ p r w hw, ← List.append_assoc]

/-- Stable insertion into a sorted list: the new element goes after every
already placed element that may come before it, so elements that compare
equal keep their arrival order, as `Array.prototype.sort` guarantees. -/
def insertStable {α : Type} (le : α → α → Bool) (x : α) : List α → List α
  | [] => [x]
  | y :: l => if le y x then y :: insertStable le x l else x :: y :: l

/-- Stable sort, modelling ECMAScript `Array.prototype.sort` with a
consistent comparator: `le a b` holds when the comparator allows `a` to come
before `b`. -/
def stableSort {α : Type} (le : α → α → Bool) (l : List α) : List α :=
  l.foldl (fun acc x => insertStable le x acc) []

theorem insertStable_perm {α : Type} (le : α → α → Bool) (x : α) :
    ∀ l : List α, (insertStable le x l).Perm (x :: l) := by
  intro l
  induction l with
  | nil => simp [insertStable]
  | cons y l ih =>
    rw [insertStable]
    by_cases hc : le y x = true
    · rw [if_pos hc]
      exact (ih.cons y).trans (List.Perm.swap x y l)
    · rw [if_neg hc]

theorem stableSort_perm {α : Type} (le : α → α → Bool) (l : List α) :
    (stableSort le l).Perm l := by
  suffices h : ∀ (acc : List α), (l.foldl (fun acc x => insertStable le x acc) acc).Perm (acc ++ l) by
    simpa using h []
  induction l with
  | nil => intro acc; simp
  | cons x l ih =>
    intro acc
    rw [List.foldl_cons]
    refine (ih (insertStable le x acc)).trans ?_
    refine (List.Perm.append_right l (insertStable_perm le x acc)).trans ?_
    simpa using List.perm_middle.symm

theorem insertStable_pairwise {α : Type} (le : α → α → Bool)
    (htrans : ∀ a b c, le a b = true → le b c = true → le a c = true)
    (htotal : ∀ a b, le a b = true ∨ le b a = true) (x : α) :
    ∀ l : List α, l.Pairwise (fun a b => le a b = true) →
      (insertStable le x l).Pairwise (fun a b => le a b = true) := by
  intro l
  induction l with
  | nil => intro _; simp [insertStable]
  | cons y l ih =>
    intro hl
    rw [List.pairwise_cons] at hl
    rw [insertStable]
    by_cases hc : le y x = true
    · rw [if_pos hc, List.pairwise_cons]
      constructor
      · intro z hz
        rcases List.mem_cons.mp ((insertStable_perm le x l).mem_iff.mp hz) with hz1 | hz1
        · rw [hz1]; exact hc
        · exact hl.1 z hz1
      · exact ih hl.2
    · rw [if_neg hc, List.pairwise_cons]
      constructor
      · intro z hz
        rcases List.mem_cons.mp hz with hz1 | hz1
        · rcases htotal x y with h1 | h1
          · rw [hz1]; exact h1
          · exact absurd h1 hc
        · rcases htotal x y with h1 | h1
          · exact htrans x y z h1 (hl.1 z hz1)
          · exact absurd h1 hc
      · exact List.pairwise_cons.mpr hl

theorem stableSort_pairwise {α : Type} (le : α → α → Bool)
    (htrans : ∀ a b c, le a b = true → le b c = true → le a c = true)
    (htotal : ∀ a b, le a b = true ∨ le b a = true) (l : List α) :
    (stableSort le l).Pairwise (fun a b => le a b = true) := by
  suffices h : ∀ acc : List α, acc.Pairwise (fun a b => le a b = true) →
      (l.foldl (fun acc x => insertStable le x acc) acc).Pairwise (fun a b => le a b = true) by
    exact h [] (by simp)
  induction l with
  | nil => intro acc hacc; simpa using hacc
  | cons x l ih =>
    intro acc hacc
    rw [List.foldl_cons]
    exact ih (insertStable le x acc) (insertStable_pairwise le htrans htotal x acc hacc)

/-- Lookup in the association-list model of a JavaScript `Map`. -/
def mapGet {α : Type} : List (Str × α) → Str → Option α
  | [], _ => none
  | (k, v) :: m, k2 => if k2 = k then some v else mapGet m k2

/-- `Map.prototype.has`. -/
def mapHas {α : Type} (m : List (Str × α)) (k : Str) : Bool := (mapGet m k).isSome

/-- `Map.prototype.set`: an existing key keeps its position and gets the new
value, a new key is appended. -/
def mapSet {α : Type} : List (Str × α) → Str → α → List (Str × α)
  | [], k, v => [(k, v)]
  | (k0, v0) :: m, k, v => if k = k0 then (k0, v) :: m else (k0, v0) :: mapSet m k v

/-- Deleting every key satisfying a predicate, modelling the
filter-then-delete loops of `findBestMatch`. -/
def mapDeleteWhere {α : Type} (m : List (Str × α)) (f : Str → Bool) : List (Str × α) :=
  m.filter (fun kv => !(f kv.1))

/-- `Map.prototype.values`, in insertion order. -/
def mapValues {α : Type} (m : List (Str × α)) : List α := m.map (fun kv => kv.2)

/-- `Map.prototype.keys`, in insertion order. -/
def mapKeys {α : Type} (m : List (Str × α)) : List Str := m.map (fun kv => kv.1)

/-- One analyzer span, the fields the reconciliation reads from an element of
`analyzerResults` (the source field `end` is called `stop` here; the IEEE
double `score` is modelled as a rational, exact for the magnitudes involved
and order-isomorphic for the comparisons performed). -/
structure AnalyzerResult where
  entity_type : Str
  start : Nat
  stop : Nat
  score : Rat
deriving DecidableEq

/-- One anonymizer result item, the fields the reconciliation reads from an
element of `anonymizerResponse.data.items`: `text` is absent or empty for a
transform that did not report a replacement value (`result.text` falsy). -/
structure AnonymizerItem where
  entity_type : Str
  text : Option Str
deriving DecidableEq

/-- The `SensitiveEntity` record of the source. -/
structure SensitiveEntity where
  original : Str
  anonymized : Str
  entityType : Str
  start : Nat
  stop : Nat
deriving DecidableEq

/-- The mapping table `entityMap : Map<string, SensitiveEntity>`. -/
abbrev EMap := List (Str × SensitiveEntity)

/-- `String.prototype.substring(a, b)`: both indices are clamped to the
string length and swapped when out of order. -/
def jsSubstring (s : Str) (a b : Nat) : Str :=
  let a2 := min a s.length
  let b2 := min b s.length
  (s.take (max a2 b2)).drop (min a2 b2)

/-- Decimal digits of a natural number, most significant first; the
structurally decreasing fuel only bounds the recursion, one division by ten
per step. -/
def natDigitsAux : Nat → Nat → List Nat
  | 0, n => [n]
  | fuel + 1, n => if n < 10 then [n] else natDigitsAux fuel (n / 10) ++ [n % 10]

/-- Decimal digits of a natural number, most significant first. -/
def natDigits (n : Nat) : List Nat := natDigitsAux n n

/-- The character of a decimal digit (digits above nine cannot arise from
the division chain). -/
def digitChar : Nat → Char
  | 0 => '0'
  | 1 => '1'
  | 2 => '2'
  | 3 => '3'
  | 4 => '4'
  | 5 => '5'
  | 6 => '6'
  | 7 => '7'
  | 8 => '8'
  | _ => '9'

/-- Decimal notation of a natural number, as produced by JavaScript template
interpolation of a nonnegative integer. -/
def natToStr (n : Nat) : Str := (natDigits n).map digitChar

/-- The composite key `` `${entityType}-${start}-${end}` `` of the source. -/
def mkKey (t : Str) (a b : Nat) : Str := t ++ '-' :: (natToStr a ++ '-' :: natToStr b)

/-- The stable key `` `${entityType}-best` `` used after best-match
reduction. -/
def bestKey (t : Str) : Str := t ++ '-' :: "best".data

/-- The bracketed fallback placeholder `` `[${entityType}]` ``. -/
def bracketName (t : Str) : Str := '[' :: (t ++ [']'])

/-- The JavaScript `a || b` idiom applied to `result.text`: an absent or
empty string falls back to the default. -/
def jsOrText (o : Option Str) (dflt : Str) : Str :=
  match o with
  | none => dflt
  | some t => if t.isEmpty then dflt else t

/-- The per-category transforms of `buildAnonymizersConfig`. -/
inductive Transform where
  | replace (newValue : Str)
  | mask (maskingChar : Char) (charsToMask : Nat) (fromEnd : Bool)
  | hash
deriving DecidableEq

/-- The static configuration sent to the anonymizer (`buildAnonymizersConfig`
in the source); the `DEFAULT` entry, an irreversible hash, applies to any
category not listed. -/
def buildAnonymizersConfig : List (Str × Transform) := [
  ("PHONE_NUMBER".data, Transform.replace "[PHONE]".data),
  ("NAME".data, Transform.replace "[PERSON]".data),
  ("PERSON".data, Transform.replace "[PERSON]".data),
  ("EMAIL_ADDRESS".data, Transform.mask '*' 5 false),
  ("LOCATION".data, Transform.replace "[LOCATION]".data),
  ("ORGANIZATION".data, Transform.replace "[ORGANIZATION]".data),
  ("US_SSN".data, Transform.mask '#' 5 true),
  ("US_DRIVER_LICENSE".data, Transform.mask '#' 4 true),
  ("CREDIT_CARD".data, Transform.mask '*' 12 true),
  ("DATE_TIME".data, Transform.replace "[DATE_TIME]".data),
  ("NRP".data, Transform.replace "[NRP]".data),
  ("US_BANK_ACCOUNT".data, Transform.mask '#' 8 true),
  ("US_ITIN".data, Transform.mask '#' 5 true),
  ("US_PASSPORT".data, Transform.mask '#' 5 true),
  ("UK_NHS".data, Transform.mask '#' 6 true),
  ("IP_ADDRESS".data, Transform.mask '0' 6 true),
  ("IBAN_CODE".data, Transform.mask '#' 10 true),
  ("CRYPTO".data, Transform.mask '*' 10 true),
  ("URL".data, Transform.replace "[URL]".data),
  ("MEDICAL_LICENSE".data, Transform.mask '#' 5 true),
  ("MEDICAL_RECORD".data, Transform.mask '#' 5 true),
  ("AGE".data, Transform.replace "[AGE]".data),
  ("ADDRESS".data, Transform.replace "[ADDRESS]".data)]

/-- The literal replacement value configured for a category, when its
transform is a literal replacement. -/
def literalNewValue (t : Str) : Option Str :=
  match mapGet buildAnonymizersConfig t with
  | some (Transform.replace v) => some v
  | _ => none

/-- Whether the configured transform of a category is a literal
replacement. -/
def isLiteralCat (t : Str) : Bool := (literalNewValue t).isSome

/-- The placeholder a literal category is known to produce (with the
bracketed name as an unreachable fallback for non-literal categories). -/
def phOf (t : Str) : Str := (literalNewValue t).getD (bracketName t)

/-- The category constant PERSON. -/
def personCat : Str := "PERSON".data

/-- The category constant PHONE_NUMBER. -/
def phoneCat : Str := "PHONE_NUMBER".data

/-- The hard-coded switch of `buildEntityMapping` that standardises the
anonymized value of the five known categories. -/
def switchPlaceholder (t : Str) : Option Str :=
  if t = "PERSON".data then some "[PERSON]".data
  else if t = "PHONE_NUMBER".data then some "[PHONE]".data
  else if t = "DATE_TIME".data then some "[DATE_TIME]".data
  else if t = "ORGANIZATION".data then some "[ORGANIZATION]".data
  else if t = "LOCATION".data then some "[LOCATION]".data
  else none

/-- The `anonymizedEntities` map of `buildEntityMapping`: one standardised
placeholder per category found in the anonymizer items, the switch falling
back to `result.text` or the bracketed category name. -/
def anonymizedEntitiesOf (anonymizerResults : List AnonymizerItem) : List (Str × Str) :=
  anonymizerResults.foldl (fun m result =>
    match switchPlaceholder result.entity_type with
    | some ph => mapSet m result.entity_type ph
    | none => mapSet m result.entity_type
        (jsOrText result.text (bracketName result.entity_type))) []

/-- One step of the grouping loop: append the result to its category
group. -/
def groupStep (m : List (Str × List AnalyzerResult)) (result : AnalyzerResult) :
    List (Str × List AnalyzerResult) :=
  mapSet m result.entity_type (((mapGet m result.entity_type).getD []) ++ [result])

/-- Grouping of the analyzer results by entity type (first loop of
`buildEntityMapping`), in first-seen order of the categories. -/
def groupByType (analyzerResults : List AnalyzerResult) : List (Str × List AnalyzerResult) :=
  analyzerResults.foldl groupStep []

/-- The comparator of the per-category normalisation sort: longer spans
first, higher scores among equal lengths (`a` may come before `b` when the
source comparator returns a nonpositive number). -/
def analyzerLe (a b : AnalyzerResult) : Bool :=
  let aLength := a.stop - a.start
  let bLength := b.stop - b.start
  if aLength ≠ bLength then decide (bLength < aLength) else decide (b.score ≤ a.score)

/-- One step of the deduplication loop: insert the entity under its
positional key unless that key is already taken. -/
def dedupStep (catName : Str) (pe2 : List (Str × AnalyzerResult)) (entity : AnalyzerResult) :
    List (Str × AnalyzerResult) :=
  let key := mkKey catName entity.start entity.stop
  if mapHas pe2 key then pe2 else mapSet pe2 key entity

/-- One step of the per-group loop: sort the group by the normalisation
comparator, then deduplicate. -/
def groupDedup (pe : List (Str × AnalyzerResult)) (g : Str × List AnalyzerResult) :
    List (Str × AnalyzerResult) :=
  (stableSort analyzerLe g.2).foldl (dedupStep g.1) pe

/-- The `processedEntities` map of `buildEntityMapping`: per category group,
entities sorted by the normalisation comparator and deduplicated by the
positional key, first seen wins. -/
def processedEntities (groups : List (Str × List AnalyzerResult)) : List (Str × AnalyzerResult) :=
  groups.foldl groupDedup []

/-- One step of the final construction loop of `buildEntityMapping`: slice
the original text, resolve the standardised placeholder, skip PERSON
fragments shorter than three characters, insert under the positional key. -/
def buildPreStep (originalText : Str) (anonEnts : List (Str × Str)) (m : EMap)
    (entity : AnalyzerResult) : EMap :=
  let originalValue := jsSubstring originalText entity.start entity.stop
  let anonymizedValue :=
    (mapGet anonEnts entity.entity_type).getD (bracketName entity.entity_type)
  if entity.entity_type = personCat ∧ originalValue.length < 3 then m
  else mapSet m (mkKey entity.entity_type entity.start entity.stop)
    ⟨originalValue, anonymizedValue, entity.entity_type, entity.start, entity.stop⟩

/-- The final construction loop of `buildEntityMapping`. -/
def buildPre (originalText : Str) (anonEnts : List (Str × Str))
    (pe : List (Str × AnalyzerResult)) : EMap :=
  (mapValues pe).foldl (buildPreStep originalText anonEnts) []

/-- The PHONE_NUMBER best-match comparator: entries containing a plus sign
first, longer originals among equal plus status. -/
def phoneLe (a b : SensitiveEntity) : Bool :=
  let aHasPlus := a.original.contains '+'
  let bHasPlus := b.original.contains '+'
  if aHasPlus ≠ bHasPlus then aHasPlus
  else decide (b.original.length ≤ a.original.length)

/-- The PERSON best-match comparator: entries containing a space first,
longer originals among equal space status. -/
def personLe (a b : SensitiveEntity) : Bool :=
  let aHasSpace := a.original.contains ' '
  let bHasSpace := b.original.contains ' '
  if aHasSpace ≠ bHasSpace then aHasSpace
  else decide (b.original.length ≤ a.original.length)

/-- `findBestMatch` of the source: when at least two entries of the category
exist, sort them by the category comparator, delete every key starting with
the category name and a dash, and reinsert the winner under the stable best
key.  The `originalText` parameter is unused, as in the source. -/
def findBestMatch (_originalText : Str) (m : EMap) (entityType : Str) : EMap :=
  let entities := (mapValues m).filter (fun e => e.entityType == entityType)
  if entities.length ≤ 1 then m
  else if entityType = phoneCat then
    match stableSort phoneLe entities with
    | [] => m
    | bestMatch :: _ =>
      mapSet (mapDeleteWhere m (fun k => headOf (entityType ++ ['-']) k))
        (bestKey entityType)
        ⟨bestMatch.original, bestMatch.anonymized, entityType, bestMatch.start, bestMatch.stop⟩
  else if entityType = personCat then
    match stableSort personLe entities with
    | [] => m
    | bestMatch :: _ =>
      mapSet (mapDeleteWhere m (fun k => headOf (entityType ++ ['-']) k))
        (bestKey entityType)
        ⟨bestMatch.original, bestMatch.anonymized, entityType, bestMatch.start, bestMatch.stop⟩
  else m

/-- `buildEntityMapping` of the source: the guard on empty anonymizer
results, the two processing maps, the construction loop, then the two
best-match reductions. -/
def buildEntityMapping (originalText : Str) (anonymizerResults : List AnonymizerItem)
    (analyzerResults : List AnalyzerResult) : EMap :=
  if anonymizerResults.length = 0 then []
  else
    let pre := buildPre originalText (anonymizedEntitiesOf anonymizerResults)
      (processedEntities (groupByType analyzerResults))
    findBestMatch originalText (findBestMatch originalText pre phoneCat) personCat

/-- The deanonymization sort comparator: longer anonymized values first. -/
def deanonLe (a b : SensitiveEntity) : Bool :=
  decide (b.anonymized.length ≤ a.anonymized.length)

/-- The `sortedEntities` array of `deanonymizeText`. -/
def sortedEntitiesOf (m : EMap) : List SensitiveEntity := stableSort deanonLe (mapValues m)

/-- `deanonymizeText` of the source: nothing to do on an empty table,
otherwise one global escaped-regex replacement per entry, longest anonymized
value first. -/
def deanonymizeText (m : EMap) (anonymizedText : Str) : Str :=
  if m.length = 0 then anonymizedText
  else (sortedEntitiesOf m).foldl
    (fun result entity => replaceAll entity.anonymized entity.original result) anonymizedText

/-- `anonymizeText` of the source, with the two remote calls supplied as
parameters: a failing detector or anonymizer call is caught by the inner
catch and degrades to the original text with `entitiesFound = false`; an
empty detection list returns the original text; otherwise the mapping table
is rebuilt and `entitiesFound` reports whether it is non-empty.  The second
component of the result models the `entityMap` instance state after the
call (cleared at entry, populated only on the success path). -/
def anonymizeText (text : Str) (analyzerCall : Except Unit (List AnalyzerResult))
    (anonymizerCall : Except Unit (Str × List AnonymizerItem)) : (Str × Bool) × EMap :=
  match analyzerCall with
  | Except.error _ => ((text, false), [])
  | Except.ok analyzerResults =>
    if analyzerResults.length = 0 then ((text, false), [])
    else
      match anonymizerCall with
      | Except.error _ => ((text, false), [])
      | Except.ok (anonymizedText, anonymizerResults) =>
        let m := buildEntityMapping text anonymizerResults analyzerResults
        ((anonymizedText, decide (0 < m.length)), m)

/-- Modelled from the spec: the anonymizer collaborator substitutes, at each
detected span, the placeholder its configured transform produces for the
span category (`§6`: "placeholders substituted at the detected spans"); the
spans are taken in text order. -/
def anonymizerText (T : Str) (pos : Nat) : List AnalyzerResult → Str
  | [] => T.drop pos
  | r :: rest => (T.take r.start).drop pos ++ phOf r.entity_type ++ anonymizerText T r.stop rest

/-- Modelled from the spec: the applied items the anonymizer collaborator
reports, one per span, each naming the category and the literal replacement
value used. -/
def anonymizerItems (rs : List AnalyzerResult) : List AnonymizerItem :=
  rs.map (fun r => ⟨r.entity_type, some (phOf r.entity_type)⟩)

theorem mapGet_mapSet_self {α : Type} (m : List (Str × α)) (k : Str) (v : α) :
    mapGet (mapSet m k v) k = some v := by
  induction m with
  | nil => simp [mapSet, mapGet]
  | cons kv m ih =>
    obtain ⟨k0, v0⟩ := kv
    rw [mapSet]
    by_cases hk : k = k0
    · rw [if_pos hk, mapGet, if_pos hk]
    · rw [if_neg hk, mapGet, if_neg hk, ih]

theorem mapGet_mapSet_other {α : Type} (m : List (Str × α)) (k k2 : Str) (v : α)
    (h : k2 ≠ k) : mapGet (mapSet m k v) k2 = mapGet m k2 := by
  induction m with
  | nil => simp [mapSet, mapGet, h]
  | cons kv m ih =>
    obtain ⟨k0, v0⟩ := kv
    rw [mapSet]
    by_cases hk : k = k0
    · subst hk
      rw [if_pos rfl, mapGet, mapGet, if_neg h, if_neg h]
    · rw [if_neg hk, mapGet, mapGet, ih]

theorem mapSet_fresh {α : Type} (m : List (Str × α)) (k : Str) (v : α)
    (h : mapGet m k = none) : mapSet m k v = m ++ [(k, v)] := by
  induction m with
  | nil => simp [mapSet]
  | cons kv m ih =>
    obtain ⟨k0, v0⟩ := kv
    rw [mapGet] at h
    by_cases hk : k = k0
    · rw [if_pos hk] at h; exact absurd h (by simp)
    · rw [if_neg hk] at h
      rw [mapSet, if_neg hk, ih h, List.cons_append]

theorem mapGet_eq_none {α : Type} (m : List (Str × α)) (k : Str)
    (h : ∀ kv ∈ m, kv.1 ≠ k) : mapGet m k = none := by
  induction m with
  | nil => rfl
  | cons kv m ih =>
    obtain ⟨k0, v0⟩ := kv
    rw [mapGet, if_neg, ih]
    · intro kv2 hm; exact h kv2 (List.mem_cons_of_mem _ hm)
    · intro he
      exact h (k0, v0) (List.mem_cons_self _ _) he.symm

theorem mapGet_append_right {α : Type} (m m2 : List (Str × α)) (k : Str)
    (h : mapGet m k = none) : mapGet (m ++ m2) k = mapGet m2 k := by
  induction m with
  | nil => simp
  | cons kv m ih =>
    obtain ⟨k0, v0⟩ := kv
    rw [mapGet] at h
    by_cases hk : k = k0
    · rw [if_pos hk] at h; exact absurd h (by simp)
    · rw [if_neg hk] at h
      rw [List.cons_append, mapGet, if_neg hk, ih h]

theorem phoneLe_iff (a b : SensitiveEntity) :
    phoneLe a b = true ↔
      ((a.original.contains '+' = true ∧ b.original.contains '+' = false) ∨
       (a.original.contains '+' = b.original.contains '+' ∧
        b.original.length ≤ a.original.length)) := by
  unfold phoneLe
  cases ha : a.original.contains '+' <;> cases hb : b.original.contains '+' <;> simp [ha, hb]

theorem phoneLe_trans (a b c : SensitiveEntity)
    (hab : phoneLe a b = true) (hbc : phoneLe b c = true) : phoneLe a c = true := by
  rw [phoneLe_iff] at *
  rcases hab with ⟨h1, h2⟩ | ⟨h1, h2⟩ <;> rcases hbc with ⟨h3, h4⟩ | ⟨h3, h4⟩
  · rw [h2] at h3; exact absurd h3 (by simp)
  · left; exact ⟨h1, h3 ▸ h2⟩
  · left; exact ⟨h1 ▸ h3, h4⟩
  · right; exact ⟨h1.trans h3, h4.trans h2⟩

theorem phoneLe_total (a b : SensitiveEntity) :
    phoneLe a b = true ∨ phoneLe b a = true := by
  rw [phoneLe_iff, phoneLe_iff]
  cases ha : a.original.contains '+' <;> cases hb : b.original.contains '+' <;>
    rcases Nat.le_total b.original.length a.original.length with hl | hl <;> simp [hl]

theorem personLe_iff (a b : SensitiveEntity) :
    personLe a b = true ↔
      ((a.original.contains ' ' = true ∧ b.original.contains ' ' = false) ∨
       (a.original.contains ' ' = b.original.contains ' ' ∧
        b.original.length ≤ a.original.length)) := by
  unfold personLe
  cases ha : a.original.contains ' ' <;> cases hb : b.original.contains ' ' <;> simp [ha, hb]

theorem personLe_trans (a b c : SensitiveEntity)
    (hab : personLe a b = true) (hbc : personLe b c = true) : personLe a c = true := by
  rw [personLe_iff] at *
  rcases hab with ⟨h1, h2⟩ | ⟨h1, h2⟩ <;> rcases hbc with ⟨h3, h4⟩ | ⟨h3, h4⟩
  · rw [h2] at h3; exact absurd h3 (by simp)
  · left; exact ⟨h1, h3 ▸ h2⟩
  · left; exact ⟨h1 ▸ h3, h4⟩
  · right; exact ⟨h1.trans h3, h4.trans h2⟩

theorem personLe_total (a b : SensitiveEntity) :
    personLe a b = true ∨ personLe b a = true := by
  rw [personLe_iff, personLe_iff]
  cases ha : a.original.contains ' ' <;> cases hb : b.original.contains ' ' <;>
    rcases Nat.le_total b.original.length a.original.length with hl | hl <;> simp [hl]

theorem deanonLe_trans (a b c : SensitiveEntity)
    (hab : deanonLe a b = true) (hbc : deanonLe b c = true) : deanonLe a c = true := by
  simp only [deanonLe, decide_eq_true_eq] at *
  omega

theorem deanonLe_total (a b : SensitiveEntity) :
    deanonLe a b = true ∨ deanonLe b a = true := by
  simp only [deanonLe, decide_eq_true_eq]
  omega

theorem anonymizedEntitiesOf_get (items : List AnonymizerItem) (c : Str) :
    mapGet (anonymizedEntitiesOf items) c =
      ((items.filter (fun i => i.entity_type == c)).getLast?).map (fun i =>
        match switchPlaceholder c with
        | some ph => ph
        | none => jsOrText i.text (bracketName c)) := by
  induction items using List.reverseRecOn with
  | nil => simp [anonymizedEntitiesOf, mapGet]
  | append_singleton items i ih =>
    have hstep : anonymizedEntitiesOf (items ++ [i]) =
        (match switchPlaceholder i.entity_type with
         | some ph => mapSet (anonymizedEntitiesOf items) i.entity_type ph
         | none => mapSet (anonymizedEntitiesOf items) i.entity_type
             (jsOrText i.text (bracketName i.entity_type))) := by
      unfold anonymizedEntitiesOf
      rw [List.foldl_append]
      simp
    rw [hstep, List.filter_append]
    by_cases hc : i.entity_type = c
    · subst hc
      rw [List.filter_cons, if_pos (by simp), List.filter_nil]
      rw [List.getLast?_concat]
      cases hsw : switchPlaceholder i.entity_type with
      | some ph => simp [hsw, mapGet_mapSet_self]
      | none => simp [hsw, mapGet_mapSet_self]
    · rw [List.filter_cons, if_neg (by simp [hc]), List.filter_nil, List.append_nil]
      cases hsw : switchPlaceholder i.entity_type with
      | some ph =>
        simp only [hsw]
        rw [mapGet_mapSet_other _ _ _ _ (fun he => hc he.symm), ih]
      | none =>
        simp only [hsw]
        rw [mapGet_mapSet_other _ _ _ _ (fun he => hc he.symm), ih]

/-- Claim C3: on a transport-level failure of either the detector call or
the anonymizer call, `anonymizeText` returns the original input text with
`entitiesFound = false` and propagates nothing to the caller. -/
theorem c3_soft_fail (text : Str) (analyzerCall : Except Unit (List AnalyzerResult))
    (anonymizerCall : Except Unit (Str × List AnonymizerItem))
    (h : analyzerCall = Except.error () ∨ anonymizerCall = Except.error ()) :
    (anonymizeText text analyzerCall anonymizerCall).1 = (text, false) := by
  rcases h with h | h
  · subst h; rfl
  · subst h
    cases analyzerCall with
    | error e => rfl
    | ok rs =>
      by_cases hrs : rs.length = 0
      · simp [anonymizeText, hrs]
      · simp [anonymizeText, hrs]

theorem c3_soft_fail_witness :
    ((Except.error () : Except Unit (List AnalyzerResult)) = Except.error () ∨
      (Except.ok ("x".data, []) : Except Unit (Str × List AnonymizerItem)) = Except.error ()) ∧
    (anonymizeText "abc".data (Except.error ()) (Except.ok ("x".data, []))).1 =
      ("abc".data, false) :=
  ⟨Or.inl rfl,
    c3_soft_fail "abc".data (Except.error ()) (Except.ok ("x".data, [])) (Or.inl rfl)⟩

/-- Claim C7 (amended): the placeholder recorded for a category present in
the anonymizer output is resolved from the static switch table first, for
the five categories that table knows, ignoring any per-item literal; for any
other category the last item of that category decides: its text when present
and non-empty, else the bracketed category name. -/
theorem c7_placeholder_resolution (items : List AnonymizerItem) (c : Str) :
    mapGet (anonymizedEntitiesOf items) c =
      ((items.filter (fun i => i.entity_type == c)).getLast?).map (fun i =>
        match switchPlaceholder c with
        | some ph => ph
        | none => jsOrText i.text (bracketName c)) :=
  anonymizedEntitiesOf_get items c

/-- Claim C7, counterexample to the claim as stated: a PERSON item that
carries the explicit literal replacement value XYZ does not get XYZ as its
anonymized value; the static switch table wins. -/
theorem c7_counterexample :
    mapGet (anonymizedEntitiesOf [⟨"PERSON".data, some "XYZ".data⟩]) "PERSON".data =
      some "[PERSON]".data ∧
    (some "[PERSON]".data : Option Str) ≠ some "XYZ".data := by
  constructor
  · rfl
  · decide

/-- Claim C10: the `entitiesFound` flag equals non-emptiness of the mapping
table after reconciliation, not a comparison of the returned text with the
input; concretely, a single detected PERSON span whose text Al is shorter
than three characters yields `entitiesFound = false` while the returned text
is the anonymizer output, different from the input. -/
theorem c10_entities_found_flag :
    (∀ (text atext : Str) (rs : List AnalyzerResult) (items : List AnonymizerItem),
      rs.length ≠ 0 →
      (anonymizeText text (Except.ok rs) (Except.ok (atext, items))).1.2 =
        decide (0 < (anonymizeText text (Except.ok rs) (Except.ok (atext, items))).2.length)) ∧
    ((anonymizeText "Hello Al".data (Except.ok [⟨"PERSON".data, 6, 8, (9 : Rat)/10⟩])
        (Except.ok ("Hello [PERSON]".data, [⟨"PERSON".data, some "[PERSON]".data⟩]))).1 =
      ("Hello [PERSON]".data, false) ∧
      ("Hello [PERSON]".data : Str) ≠ "Hello Al".data) := by
  refine ⟨?_, ?_, ?_⟩
  · intro text atext rs items h
    simp [anonymizeText, h]
  · rfl
  · decide

theorem c10_entities_found_flag_witness :
    (([⟨"PERSON".data, 6, 8, (9 : Rat)/10⟩] : List AnalyzerResult).length ≠ 0) ∧
    (anonymizeText "Hello Al".data (Except.ok [⟨"PERSON".data, 6, 8, (9 : Rat)/10⟩])
        (Except.ok ("Hello [PERSON]".data, [⟨"PERSON".data, some "[PERSON]".data⟩]))).1.2 =
      decide (0 < (anonymizeText "Hello Al".data
        (Except.ok [⟨"PERSON".data, 6, 8, (9 : Rat)/10⟩])
        (Except.ok ("Hello [PERSON]".data,
          [⟨"PERSON".data, some "[PERSON]".data⟩]))).2.length) :=
  ⟨by simp, c10_entities_found_flag.1 "Hello Al".data "Hello [PERSON]".data
    [⟨"PERSON".data, 6, 8, (9 : Rat)/10⟩] [⟨"PERSON".data, some "[PERSON]".data⟩] (by simp)⟩

theorem stableSort_head_best {α : Type} (le : α → α → Bool)
    (htrans : ∀ a b c, le a b = true → le b c = true → le a c = true)
    (htotal : ∀ a b, le a b = true ∨ le b a = true) (l : List α) (w : α) (rest : List α)
    (h : stableSort le l = w :: rest) : ∀ e ∈ l, le w e = true := by
  intro e he
  have hperm := stableSort_perm le l
  have hmem : e ∈ w :: rest := by
    rw [← h]
    exact hperm.mem_iff.mpr he
  have hpw := stableSort_pairwise le htrans htotal l
  rw [h, List.pairwise_cons] at hpw
  rcases List.mem_cons.mp hmem with rfl | hm
  · rcases htotal e e with h1 | h1 <;> exact h1
  · exact hpw.1 e hm

theorem findBestMatch_phone_case (T : Str) (m : EMap) (w : SensitiveEntity)
    (rest : List SensitiveEntity)
    (hsort : stableSort phoneLe ((mapValues m).filter (fun e => e.entityType == phoneCat)) =
      w :: rest)
    (h2 : ¬ ((mapValues m).filter (fun e => e.entityType == phoneCat)).length ≤ 1) :
    findBestMatch T m phoneCat =
      mapSet (mapDeleteWhere m (fun k => headOf (phoneCat ++ ['-']) k)) (bestKey phoneCat)
        ⟨w.original, w.anonymized, phoneCat, w.start, w.stop⟩ := by
  simp only [findBestMatch]
  rw [if_neg h2]
  simp only [if_true]
  rw [hsort]

theorem findBestMatch_person_case (T : Str) (m : EMap) (w : SensitiveEntity)
    (rest : List SensitiveEntity)
    (hsort : stableSort personLe ((mapValues m).filter (fun e => e.entityType == personCat)) =
      w :: rest)
    (h2 : ¬ ((mapValues m).filter (fun e => e.entityType == personCat)).length ≤ 1) :
    findBestMatch T m personCat =
      mapSet (mapDeleteWhere m (fun k => headOf (personCat ++ ['-']) k)) (bestKey personCat)
        ⟨w.original, w.anonymized, personCat, w.start, w.stop⟩ := by
  simp only [findBestMatch]
  rw [if_neg h2, if_neg (by decide : ¬ (personCat = phoneCat))]
  simp only [if_true]
  rw [hsort]

/-- The two PHONE_NUMBER spans of the determinism scenario. -/
def phoneShortEnt : SensitiveEntity :=
  ⟨"555-1234".data, "[PHONE]".data, "PHONE_NUMBER".data, 0, 8⟩

/-- The international PHONE_NUMBER span of the determinism scenario. -/
def phoneLongEnt : SensitiveEntity :=
  ⟨"+1 555-123-4567".data, "[PHONE]".data, "PHONE_NUMBER".data, 20, 35⟩

/-- Claim C4 (amended): among two or more PHONE_NUMBER entries the reduction
selects a winner that is maximal for the key (contains a plus sign anywhere,
then original length), reinserted under the best key; in particular the two
spans 555-1234 and +1 555-123-4567 always yield the latter, in either
arrival order. -/
theorem c4_phone_best_match (T : Str) (m : EMap)
    (h2 : 2 ≤ ((mapValues m).filter (fun e => e.entityType == phoneCat)).length) :
    (∃ w rest,
      stableSort phoneLe ((mapValues m).filter (fun e => e.entityType == phoneCat)) =
        w :: rest ∧
      mapGet (findBestMatch T m phoneCat) (bestKey phoneCat) =
        some ⟨w.original, w.anonymized, phoneCat, w.start, w.stop⟩ ∧
      w ∈ (mapValues m).filter (fun e => e.entityType == phoneCat) ∧
      ∀ e ∈ (mapValues m).filter (fun e => e.entityType == phoneCat),
        (e.original.contains '+' = true → w.original.contains '+' = true) ∧
        (e.original.contains '+' = w.original.contains '+' →
          e.original.length ≤ w.original.length)) ∧
    mapGet (findBestMatch [] [(mkKey phoneCat 0 8, phoneShortEnt),
        (mkKey phoneCat 20 35, phoneLongEnt)] phoneCat) (bestKey phoneCat) =
      some phoneLongEnt ∧
    mapGet (findBestMatch [] [(mkKey phoneCat 20 35, phoneLongEnt),
        (mkKey phoneCat 0 8, phoneShortEnt)] phoneCat) (bestKey phoneCat) =
      some phoneLongEnt := by
  refine ⟨?_, by decide, by decide⟩
  have hlen : ¬ ((mapValues m).filter (fun e => e.entityType == phoneCat)).length ≤ 1 := by
    omega
  obtain ⟨w, rest, hsort⟩ : ∃ w rest,
      stableSort phoneLe ((mapValues m).filter (fun e => e.entityType == phoneCat)) =
        w :: rest := by
    have hsl := (stableSort_perm phoneLe
      ((mapValues m).filter (fun e => e.entityType == phoneCat))).length_eq
    cases hs : stableSort phoneLe ((mapValues m).filter (fun e => e.entityType == phoneCat)) with
    | nil => rw [hs] at hsl; simp at hsl; omega
    | cons w rest => exact ⟨w, rest, rfl⟩
  refine ⟨w, rest, hsort, ?_, ?_, ?_⟩
  · rw [findBestMatch_phone_case T m w rest hsort hlen]
    exact mapGet_mapSet_self _ _ _
  · exact (stableSort_perm phoneLe _).mem_iff.mp (hsort ▸ List.mem_cons_self w rest)
  · intro e he
    have hle : phoneLe w e = true :=
      stableSort_head_best phoneLe phoneLe_trans phoneLe_total _ w rest hsort e he
    rw [phoneLe_iff] at hle
    constructor
    · intro hep
      rcases hle with ⟨h1, h2⟩ | ⟨h1, h2⟩
      · exact h1
      · rw [h1]; exact hep
    · intro heq
      rcases hle with ⟨h1, h2⟩ | ⟨h1, h2⟩
      · rw [h1] at heq; rw [heq] at h2; exact absurd h2 (by simp)
      · exact h2

theorem c4_phone_best_match_witness :
    (2 ≤ ((mapValues [(mkKey phoneCat 0 8, phoneShortEnt),
        (mkKey phoneCat 20 35, phoneLongEnt)]).filter
        (fun e => e.entityType == phoneCat)).length) ∧
    (∃ w rest,
      stableSort phoneLe ((mapValues [(mkKey phoneCat 0 8, phoneShortEnt),
          (mkKey phoneCat 20 35, phoneLongEnt)]).filter
          (fun e => e.entityType == phoneCat)) = w :: rest ∧
      mapGet (findBestMatch [] [(mkKey phoneCat 0 8, phoneShortEnt),
          (mkKey phoneCat 20 35, phoneLongEnt)] phoneCat) (bestKey phoneCat) =
        some ⟨w.original, w.anonymized, phoneCat, w.start, w.stop⟩ ∧
      w ∈ (mapValues [(mkKey phoneCat 0 8, phoneShortEnt),
          (mkKey phoneCat 20 35, phoneLongEnt)]).filter
          (fun e => e.entityType == phoneCat) ∧
      ∀ e ∈ (mapValues [(mkKey phoneCat 0 8, phoneShortEnt),
          (mkKey phoneCat 20 35, phoneLongEnt)]).filter
          (fun e => e.entityType == phoneCat),
        (e.original.contains '+' = true → w.original.contains '+' = true) ∧
        (e.original.contains '+' = w.original.contains '+' →
          e.original.length ≤ w.original.length)) :=
  ⟨by decide, (c4_phone_best_match [] [(mkKey phoneCat 0 8, phoneShortEnt),
    (mkKey phoneCat 20 35, phoneLongEnt)] (by decide)).1⟩

/-- Claim C4, counterexample to the claim as stated: with the two
PHONE_NUMBER originals 12345678+ (a plus sign, but not leading) and +1234
(a leading plus sign), the reduction selects 12345678+, so the preference is
not for a leading plus sign but for a plus sign anywhere, longer original
first. -/
theorem c4_counterexample :
    mapGet (findBestMatch [] [(mkKey phoneCat 0 9,
        ⟨"12345678+".data, "[PHONE]".data, "PHONE_NUMBER".data, 0, 9⟩),
      (mkKey phoneCat 20 25,
        ⟨"+1234".data, "[PHONE]".data, "PHONE_NUMBER".data, 20, 25⟩)] phoneCat)
      (bestKey phoneCat) =
      some ⟨"12345678+".data, "[PHONE]".data, "PHONE_NUMBER".data, 0, 9⟩ ∧
    ("12345678+".data : Str).head? ≠ some '+' ∧
    ("+1234".data : Str).head? = some '+' := by
  refine ⟨by decide, by decide, by decide⟩

/-- The single-token PERSON span of the determinism scenario. -/
def personShortEnt : SensitiveEntity :=
  ⟨"Doe".data, "[PERSON]".data, "PERSON".data, 0, 3⟩

/-- The full-name PERSON span of the determinism scenario. -/
def personLongEnt : SensitiveEntity :=
  ⟨"John Doe".data, "[PERSON]".data, "PERSON".data, 10, 18⟩

/-- Claim C5: among two or more PERSON entries the reduction selects a
winner that is maximal for the key (contains a space character, then
original length), reinserted under the best key; in particular the two spans
Doe and John Doe always yield John Doe, in either arrival order. -/
theorem c5_person_best_match (T : Str) (m : EMap)
    (h2 : 2 ≤ ((mapValues m).filter (fun e => e.entityType == personCat)).length) :
    (∃ w rest,
      stableSort personLe ((mapValues m).filter (fun e => e.entityType == personCat)) =
        w :: rest ∧
      mapGet (findBestMatch T m personCat) (bestKey personCat) =
        some ⟨w.original, w.anonymized, personCat, w.start, w.stop⟩ ∧
      w ∈ (mapValues m).filter (fun e => e.entityType == personCat) ∧
      ∀ e ∈ (mapValues m).filter (fun e => e.entityType == personCat),
        (e.original.contains ' ' = true → w.original.contains ' ' = true) ∧
        (e.original.contains ' ' = w.original.contains ' ' →
          e.original.length ≤ w.original.length)) ∧
    mapGet (findBestMatch [] [(mkKey personCat 0 3, personShortEnt),
        (mkKey personCat 10 18, personLongEnt)] personCat) (bestKey personCat) =
      some personLongEnt ∧
    mapGet (findBestMatch [] [(mkKey personCat 10 18, personLongEnt),
        (mkKey personCat 0 3, personShortEnt)] personCat) (bestKey personCat) =
      some personLongEnt := by
  refine ⟨?_, by decide, by decide⟩
  have hlen : ¬ ((mapValues m).filter (fun e => e.entityType == personCat)).length ≤ 1 := by
    omega
  obtain ⟨w, rest, hsort⟩ : ∃ w rest,
      stableSort personLe ((mapValues m).filter (fun e => e.entityType == personCat)) =
        w :: rest := by
    have hsl := (stableSort_perm personLe
      ((mapValues m).filter (fun e => e.entityType == personCat))).length_eq
    cases hs : stableSort personLe ((mapValues m).filter (fun e => e.entityType == personCat)) with
    | nil => rw [hs] at hsl; simp at hsl; omega
    | cons w rest => exact ⟨w, rest, rfl⟩
  refine ⟨w, rest, hsort, ?_, ?_, ?_⟩
  · rw [findBestMatch_person_case T m w rest hsort hlen]
    exact mapGet_mapSet_self _ _ _
  · exact (stableSort_perm personLe _).mem_iff.mp (hsort ▸ List.mem_cons_self w rest)
  · intro e he
    have hle : personLe w e = true :=
      stableSort_head_best personLe personLe_trans personLe_total _ w rest hsort e he
    rw [personLe_iff] at hle
    constructor
    · intro hep
      rcases hle with ⟨h1, h2⟩ | ⟨h1, h2⟩
      · exact h1
      · rw [h1]; exact hep
    · intro heq
      rcases hle with ⟨h1, h2⟩ | ⟨h1, h2⟩
      · rw [h1] at heq; rw [heq] at h2; exact absurd h2 (by simp)
      · exact h2

theorem c5_person_best_match_witness :
    (2 ≤ ((mapValues [(mkKey personCat 0 3, personShortEnt),
        (mkKey personCat 10 18, personLongEnt)]).filter
        (fun e => e.entityType == personCat)).length) ∧
    (∃ w rest,
      stableSort personLe ((mapValues [(mkKey personCat 0 3, personShortEnt),
          (mkKey personCat 10 18, personLongEnt)]).filter
          (fun e => e.entityType == personCat)) = w :: rest ∧
      mapGet (findBestMatch [] [(mkKey personCat 0 3, personShortEnt),
          (mkKey personCat 10 18, personLongEnt)] personCat) (bestKey personCat) =
        some ⟨w.original, w.anonymized, personCat, w.start, w.stop⟩ ∧
      w ∈ (mapValues [(mkKey personCat 0 3, personShortEnt),
          (mkKey personCat 10 18, personLongEnt)]).filter
          (fun e => e.entityType == personCat) ∧
      ∀ e ∈ (mapValues [(mkKey personCat 0 3, personShortEnt),
          (mkKey personCat 10 18, personLongEnt)]).filter
          (fun e => e.entityType == personCat),
        (e.original.contains ' ' = true → w.original.contains ' ' = true) ∧
        (e.original.contains ' ' = w.original.contains ' ' →
          e.original.length ≤ w.original.length)) :=
  ⟨by decide, (c5_person_best_match [] [(mkKey personCat 0 3, personShortEnt),
    (mkKey personCat 10 18, personLongEnt)] (by decide)).1⟩

/-- A PERSON entry whose placeholder is a proper substring of the PERSONAL
placeholder below. -/
def nestedShortEnt : SensitiveEntity :=
  ⟨"Bob".data, "[PERSON]".data, "PERSON".data, 0, 3⟩

/-- An entry of a category whose placeholder strictly contains the PERSON
placeholder. -/
def nestedLongEnt : SensitiveEntity :=
  ⟨"data".data, "[PERSONAL]".data, "PERSONAL".data, 5, 9⟩

/-- Claim C8: `deanonymizeText` processes the entries in non-increasing
order of anonymized-value length; replacement of each entry is a global,
literal-string replacement of its anonymized value (the pattern is fully
escaped, shown on a placeholder made of regex metacharacters); and when one
placeholder is a proper substring of another the longer one is replaced
first so the shorter restoration is not corrupted. -/
theorem c8_deanonymize_order :
    (∀ m : EMap, (sortedEntitiesOf m).Pairwise
      (fun a b => b.anonymized.length ≤ a.anonymized.length)) ∧
    (∀ (m : EMap) (t : Str), m.length ≠ 0 →
      deanonymizeText m t = (sortedEntitiesOf m).foldl
        (fun result entity => replaceAll entity.anonymized entity.original result) t) ∧
    (∀ m : EMap, (sortedEntitiesOf m).Perm (mapValues m)) ∧
    replaceAll "[PERSON]".data "John".data "x[PERSON]y[PERSON]z".data = "xJohnyJohnz".data ∧
    deanonymizeText [(mkKey "PERSON".data 0 3, nestedShortEnt),
        (mkKey "PERSONAL".data 5 9, nestedLongEnt)] "a [PERSONAL] b [PERSON]".data =
      "a data b Bob".data := by
  refine ⟨?_, ?_, ?_, by decide, by decide⟩
  · intro m
    have := stableSort_pairwise deanonLe deanonLe_trans deanonLe_total (mapValues m)
    refine this.imp ?_
    intro a b hab
    simpa [deanonLe] using hab
  · intro m t h
    rw [deanonymizeText, if_neg h]
  · intro m
    exact stableSort_perm deanonLe (mapValues m)

theorem c8_deanonymize_order_witness :
    (([(mkKey "PERSON".data 0 3, nestedShortEnt),
        (mkKey "PERSONAL".data 5 9, nestedLongEnt)] : EMap).length ≠ 0) ∧
    deanonymizeText [(mkKey "PERSON".data 0 3, nestedShortEnt),
        (mkKey "PERSONAL".data 5 9, nestedLongEnt)] "a [PERSONAL] b [PERSON]".data =
      (sortedEntitiesOf [(mkKey "PERSON".data 0 3, nestedShortEnt),
        (mkKey "PERSONAL".data 5 9, nestedLongEnt)]).foldl
        (fun result entity => replaceAll entity.anonymized entity.original result)
        "a [PERSONAL] b [PERSON]".data :=
  ⟨by decide, c8_deanonymize_order.2.1 [(mkKey "PERSON".data 0 3, nestedShortEnt),
    (mkKey "PERSONAL".data 5 9, nestedLongEnt)] "a [PERSONAL] b [PERSON]".data (by decide)⟩

/-- The input text of the concrete scenario. -/
def scenarioText : Str :=
  "Hello, my name is John Doe and my phone number is +1 555-123-4567.".data

/-- The detector spans of the scenario as the claim states them: PERSON at
18 to 26 and PHONE_NUMBER at 52 to 67. -/
def scenarioSpansClaimed : List AnalyzerResult :=
  [⟨"PERSON".data, 18, 26, (9 : Rat)/10⟩, ⟨"PHONE_NUMBER".data, 52, 67, (8 : Rat)/10⟩]

/-- The detector spans that actually locate John Doe and +1 555-123-4567 in
the scenario text: PERSON at 18 to 26 and PHONE_NUMBER at 50 to 65. -/
def scenarioSpans : List AnalyzerResult :=
  [⟨"PERSON".data, 18, 26, (9 : Rat)/10⟩, ⟨"PHONE_NUMBER".data, 50, 65, (8 : Rat)/10⟩]

/-- The anonymized text the claim expects. -/
def scenarioExpected : Str :=
  "Hello, my name is [PERSON] and my phone number is [PHONE].".data

/-- Claim C2, counterexample to the claim as stated: with the phone span 52
to 67 the anonymizer, substituting placeholders at the detected spans,
produces a text ending in +1[PHONE], not the expected string, because the
phone number +1 555-123-4567 occupies offsets 50 to 65 of the input. -/
theorem c2_counterexample :
    anonymizerText scenarioText 0 scenarioSpansClaimed =
      "Hello, my name is [PERSON] and my phone number is +1[PHONE]".data ∧
    anonymizerText scenarioText 0 scenarioSpansClaimed ≠ scenarioExpected := by
  refine ⟨by decide, by decide⟩

/-- Claim C2 (amended): with the PERSON span 18 to 26 and the PHONE_NUMBER
span 50 to 65 (the actual offsets of John Doe and +1 555-123-4567), the
pipeline returns the expected anonymized text with `entitiesFound = true`,
and deanonymizing that output restores the input exactly. -/
theorem c2_scenario :
    (anonymizeText scenarioText (Except.ok scenarioSpans)
      (Except.ok (anonymizerText scenarioText 0 scenarioSpans,
        anonymizerItems scenarioSpans))).1 = (scenarioExpected, true) ∧
    deanonymizeText (anonymizeText scenarioText (Except.ok scenarioSpans)
      (Except.ok (anonymizerText scenarioText 0 scenarioSpans,
        anonymizerItems scenarioSpans))).2 scenarioExpected = scenarioText := by
  refine ⟨by decide, by decide⟩

theorem mapValues_mapSet_subset {α : Type} (m : List (Str × α)) (k : Str) (v : α) :
    ∀ e ∈ mapValues (mapSet m k v), e ∈ mapValues m ∨ e = v := by
  induction m with
  | nil => intro e he; simp [mapSet, mapValues] at he; exact Or.inr he
  | cons kv m ih =>
    obtain ⟨k0, v0⟩ := kv
    intro e he
    rw [mapSet] at he
    by_cases hk : k = k0
    · rw [if_pos hk] at he
      rcases List.mem_cons.mp he with h | h
      · exact Or.inr h
      · exact Or.inl (List.mem_cons_of_mem _ h)
    · rw [if_neg hk] at he
      rcases List.mem_cons.mp he with h | h
      · exact Or.inl (h ▸ List.mem_cons_self _ _)
      · rcases ih e h with h2 | h2
        · exact Or.inl (List.mem_cons_of_mem _ h2)
        · exact Or.inr h2

theorem mapValues_deleteWhere_subset {α : Type} (m : List (Str × α)) (f : Str → Bool) :
    ∀ e ∈ mapValues (mapDeleteWhere m f), e ∈ mapValues m := by
  intro e he
  simp only [mapValues, mapDeleteWhere, List.mem_map] at he ⊢
  obtain ⟨kv, hkv, rfl⟩ := he
  exact ⟨kv, (List.mem_filter.mp hkv).1, rfl⟩

theorem findBestMatch_values_from (T : Str) (m : EMap) (c : Str) :
    ∀ e ∈ mapValues (findBestMatch T m c), ∃ e0, e0 ∈ mapValues m ∧
      e.original = e0.original ∧ e.entityType = e0.entityType ∧
      e.start = e0.start ∧ e.stop = e0.stop := by
  intro e he
  simp only [findBestMatch] at he
  by_cases h1 : ((mapValues m).filter (fun x => x.entityType == c)).length ≤ 1
  · rw [if_pos h1] at he
    exact ⟨e, he, rfl, rfl, rfl, rfl⟩
  · rw [if_neg h1] at he
    by_cases h2 : c = phoneCat
    · rw [if_pos h2] at he
      cases hs : stableSort phoneLe ((mapValues m).filter (fun x => x.entityType == c)) with
      | nil => rw [hs] at he; exact ⟨e, he, rfl, rfl, rfl, rfl⟩
      | cons w rest =>
        rw [hs] at he
        rcases mapValues_mapSet_subset _ _ _ e he with h | h
        · exact ⟨e, mapValues_deleteWhere_subset m _ e h, rfl, rfl, rfl, rfl⟩
        · have hw : w ∈ (mapValues m).filter (fun x => x.entityType == c) :=
            (stableSort_perm phoneLe _).mem_iff.mp (hs ▸ List.mem_cons_self w rest)
          have hwm := List.mem_filter.mp hw
          refine ⟨w, hwm.1, ?_, ?_, ?_, ?_⟩ <;> rw [h]
          · exact (h2 ▸ (beq_iff_eq.mp hwm.2).symm :
              (⟨w.original, w.anonymized, c, w.start, w.stop⟩ : SensitiveEntity).entityType =
                w.entityType)
    · rw [if_neg h2] at he
      by_cases h3 : c = personCat
      · rw [if_pos h3] at he
        cases hs : stableSort personLe ((mapValues m).filter (fun x => x.entityType == c)) with
        | nil => rw [hs] at he; exact ⟨e, he, rfl, rfl, rfl, rfl⟩
        | cons w rest =>
          rw [hs] at he
          rcases mapValues_mapSet_subset _ _ _ e he with h | h
          · exact ⟨e, mapValues_deleteWhere_subset m _ e h, rfl, rfl, rfl, rfl⟩
          · have hw : w ∈ (mapValues m).filter (fun x => x.entityType == c) :=
              (stableSort_perm personLe _).mem_iff.mp (hs ▸ List.mem_cons_self w rest)
            have hwm := List.mem_filter.mp hw
            refine ⟨w, hwm.1, ?_, ?_, ?_, ?_⟩ <;> rw [h]
            · exact (h3 ▸ (beq_iff_eq.mp hwm.2).symm :
                (⟨w.original, w.anonymized, c, w.start, w.stop⟩ : SensitiveEntity).entityType =
                  w.entityType)
      · rw [if_neg h3] at he
        exact ⟨e, he, rfl, rfl, rfl, rfl⟩

theorem buildPre_invariant (T : Str) (anonEnts : List (Str × Str))
    (pe : List (Str × AnalyzerResult)) :
    ∀ e ∈ mapValues (buildPre T anonEnts pe),
      (e.entityType = personCat → 3 ≤ e.original.length) ∧
      e.original = jsSubstring T e.start e.stop := by
  suffices h : ∀ (xs : List AnalyzerResult) (m0 : EMap),
      (∀ e ∈ mapValues m0, (e.entityType = personCat → 3 ≤ e.original.length) ∧
        e.original = jsSubstring T e.start e.stop) →
      ∀ e ∈ mapValues (xs.foldl (buildPreStep T anonEnts) m0),
        (e.entityType = personCat → 3 ≤ e.original.length) ∧
        e.original = jsSubstring T e.start e.stop by
    exact h (mapValues pe) [] (by simp [mapValues])
  intro xs
  induction xs with
  | nil => intro m0 hm0; simpa using hm0
  | cons x xs ih =>
    intro m0 hm0
    rw [List.foldl_cons]
    refine ih _ ?_
    intro e2 he2
    simp only [buildPreStep] at he2
    by_cases hc : x.entity_type = personCat ∧ (jsSubstring T x.start x.stop).length < 3
    · rw [if_pos hc] at he2
      exact hm0 e2 he2
    · rw [if_neg hc] at he2
      rcases mapValues_mapSet_subset _ _ _ e2 he2 with h | h
      · exact hm0 e2 h
      · subst h
        refine ⟨?_, rfl⟩
        intro hp
        simp only at hp
        rcases Nat.lt_or_ge (jsSubstring T x.start x.stop).length 3 with hlen | hlen
        · exact absurd ⟨hp, hlen⟩ hc
        · exact hlen

/-- Claim C6: a detected PERSON span whose original text (the slice of the
input at its offsets) is shorter than three characters never contributes a
mapping entry: every PERSON entry of the table built by `buildEntityMapping`
has an original of length at least three, and every entry's original is the
slice of the input text at the entry's own offsets. -/
theorem c6_person_min_length (T : Str) (items : List AnonymizerItem)
    (rs : List AnalyzerResult) :
    ∀ e ∈ mapValues (buildEntityMapping T items rs),
      (e.entityType = personCat → 3 ≤ e.original.length) ∧
      e.original = jsSubstring T e.start e.stop := by
  intro e he
  rw [buildEntityMapping] at he
  by_cases hi : items.length = 0
  · rw [if_pos hi] at he
    simp [mapValues] at he
  · rw [if_neg hi] at he
    obtain ⟨e1, he1, ho1, ht1, hs1, hp1⟩ := findBestMatch_values_from _ _ _ e he
    obtain ⟨e0, he0, ho0, ht0, hs0, hp0⟩ := findBestMatch_values_from _ _ _ e1 he1
    have hpre := buildPre_invariant T (anonymizedEntitiesOf items)
      (processedEntities (groupByType rs)) e0 he0
    rw [ho1, ht1, hs1, hp1, ho0, ht0, hs0, hp0]
    exact hpre

theorem c6_person_min_length_witness :
    (⟨"John Doe".data, "[PERSON]".data, "PERSON".data, 18, 26⟩ : SensitiveEntity) ∈
      mapValues (buildEntityMapping scenarioText (anonymizerItems scenarioSpans)
        scenarioSpans) ∧
    ((⟨"John Doe".data, "[PERSON]".data, "PERSON".data, 18, 26⟩ :
        SensitiveEntity).entityType = personCat →
      3 ≤ (⟨"John Doe".data, "[PERSON]".data, "PERSON".data, 18, 26⟩ :
        SensitiveEntity).original.length) :=
  ⟨by decide, fun hp => (c6_person_min_length scenarioText (anonymizerItems scenarioSpans)
    scenarioSpans ⟨"John Doe".data, "[PERSON]".data, "PERSON".data, 18, 26⟩
    (by decide)).1 hp⟩

theorem digitChar_ne_dash (d : Nat) : digitChar d ≠ '-' := by
  rcases d with _|_|_|_|_|_|_|_|_|d <;>
    first
    | decide
    | exact (by decide : ('9' : Char) ≠ '-')

theorem natToStr_no_dash (n : Nat) : '-' ∉ natToStr n := by
  intro h
  simp only [natToStr, List.mem_map] at h
  obtain ⟨d, -, hd⟩ := h
  exact digitChar_ne_dash d hd

/-- A mapping-table pair as the reconciliation produces them: keyed either
positionally or by the stable best key of its own category, the category
free of dashes. -/
def wellKeyedPair (kv : Str × SensitiveEntity) : Prop :=
  (kv.1 = mkKey kv.2.entityType kv.2.start kv.2.stop ∨ kv.1 = bestKey kv.2.entityType) ∧
  '-' ∉ kv.2.entityType

theorem headOf_dash_key (c t : Str) (tail : Str) (hc : '-' ∉ c) (ht : '-' ∉ t) :
    headOf (c ++ ['-']) (t ++ '-' :: tail) = true ↔ c = t := by
  constructor
  · intro h
    obtain ⟨u, hu⟩ := (headOf_iff _ _).mp h
    rw [List.append_assoc, List.singleton_append] at hu
    exact (sepInj '-' c t u tail hc ht hu.symm).1
  · intro h
    subst h
    exact (headOf_iff _ _).mpr ⟨tail, by simp⟩

theorem headOf_key_iff_type (c : Str) (kv : Str × SensitiveEntity) (hc : '-' ∉ c)
    (hwk : wellKeyedPair kv) :
    headOf (c ++ ['-']) kv.1 = true ↔ kv.2.entityType = c := by
  obtain ⟨hk, hd⟩ := hwk
  rcases hk with hk | hk
  · rw [hk, mkKey]
    rw [headOf_dash_key c _ _ hc hd]
    exact ⟨fun h => h.symm, fun h => h.symm⟩
  · rw [hk, bestKey]
    rw [headOf_dash_key c _ _ hc hd]
    exact ⟨fun h => h.symm, fun h => h.symm⟩

theorem mapGet_mem {α : Type} (m : List (Str × α)) (k : Str) (v : α)
    (h : mapGet m k = some v) : (k, v) ∈ m := by
  induction m with
  | nil => simp [mapGet] at h
  | cons kv m ih =>
    obtain ⟨k0, v0⟩ := kv
    rw [mapGet] at h
    by_cases hk : k = k0
    · rw [if_pos hk] at h
      obtain rfl := Option.some.inj h
      exact hk ▸ List.mem_cons_self _ _
    · rw [if_neg hk] at h
      exact List.mem_cons_of_mem _ (ih h)

theorem mem_mapSet_subset {α : Type} (m : List (Str × α)) (k : Str) (v : α) :
    ∀ kv ∈ mapSet m k v, kv ∈ m ∨ kv = (k, v) := by
  induction m with
  | nil => intro kv hkv; simp [mapSet] at hkv; exact Or.inr hkv
  | cons kv0 m ih =>
    obtain ⟨k0, v0⟩ := kv0
    intro kv hkv
    rw [mapSet] at hkv
    by_cases hk : k = k0
    · rw [if_pos hk] at hkv
      rcases List.mem_cons.mp hkv with h | h
      · subst hk; exact Or.inr h
      · exact Or.inl (List.mem_cons_of_mem _ h)
    · rw [if_neg hk] at hkv
      rcases List.mem_cons.mp hkv with h | h
      · exact Or.inl (h ▸ List.mem_cons_self _ _)
      · rcases ih kv h with h2 | h2
        · exact Or.inl (List.mem_cons_of_mem _ h2)
        · exact Or.inr h2

theorem mapKeys_mapSet {α : Type} (m : List (Str × α)) (k : Str) (v : α) :
    mapKeys (mapSet m k v) =
      if (mapGet m k).isSome then mapKeys m else mapKeys m ++ [k] := by
  induction m with
  | nil => rfl
  | cons kv m ih =>
    obtain ⟨k0, v0⟩ := kv
    rw [mapSet, mapGet]
    by_cases hk : k = k0
    · rw [if_pos hk, if_pos hk]
      simp [mapKeys]
    · rw [if_neg hk, if_neg hk]
      simp only [mapKeys, List.map_cons] at ih ⊢
      rw [ih]
      by_cases hs : (mapGet m k).isSome
      · rw [if_pos hs, if_pos hs]
      · rw [if_neg hs, if_neg hs, List.cons_append]

theorem mapGet_isSome_iff_mem_keys {α : Type} (m : List (Str × α)) (k : Str) :
    (mapGet m k).isSome = true ↔ k ∈ mapKeys m := by
  induction m with
  | nil => simp [mapGet, mapKeys]
  | cons kv m ih =>
    obtain ⟨k0, v0⟩ := kv
    rw [mapGet]
    by_cases hk : k = k0
    · rw [if_pos hk]
      subst hk
      simp only [Option.isSome_some, mapKeys, List.map_cons, List.mem_cons, true_iff]
      exact Or.inl trivial
    · rw [if_neg hk, ih]
      simp only [mapKeys, List.map_cons, List.mem_cons]
      constructor
      · exact Or.inr
      · rintro (h | h)
        · exact absurd h hk
        · exact h

theorem mapKeys_nodup_mapSet {α : Type} (m : List (Str × α)) (k : Str) (v : α)
    (h : (mapKeys m).Nodup) : (mapKeys (mapSet m k v)).Nodup := by
  rw [mapKeys_mapSet]
  by_cases hs : (mapGet m k).isSome
  · rw [if_pos hs]; exact h
  · rw [if_neg hs]
    have hk : k ∉ mapKeys m := fun hm => hs ((mapGet_isSome_iff_mem_keys m k).mpr hm)
    simp [List.nodup_append, h, hk]

theorem mapKeys_nodup_deleteWhere {α : Type} (m : List (Str × α)) (f : Str → Bool)
    (h : (mapKeys m).Nodup) : (mapKeys (mapDeleteWhere m f)).Nodup := by
  have hsub : List.Sublist (mapKeys (mapDeleteWhere m f)) (mapKeys m) := by
    unfold mapKeys mapDeleteWhere
    exact (List.filter_sublist m).map (fun kv => kv.1)
  exact h.sublist hsub

theorem groupByType_sub (rs : List AnalyzerResult) :
    ∀ g ∈ groupByType rs, ∀ a ∈ g.2, a ∈ rs := by
  suffices h : ∀ (xs : List (AnalyzerResult)) (acc : List (Str × List AnalyzerResult)),
      (∀ g ∈ acc, ∀ a ∈ g.2, a ∈ rs) → (∀ x ∈ xs, x ∈ rs) →
      ∀ g ∈ xs.foldl groupStep acc, ∀ a ∈ g.2, a ∈ rs by
    exact h rs [] (fun g hg => absurd hg (List.not_mem_nil g)) (fun x hx => hx)
  intro xs
  induction xs with
  | nil => intro acc hacc _; exact hacc
  | cons x xs ih =>
    intro acc hacc hxs
    rw [List.foldl_cons]
    refine ih _ ?_ (fun y hy => hxs y (List.mem_cons_of_mem _ hy))
    intro g hg a ha
    rw [groupStep] at hg
    rcases mem_mapSet_subset _ _ _ g hg with h | h
    · exact hacc g h a ha
    · subst h
      simp only at ha
      rcases List.mem_append.mp ha with h2 | h2
      · cases hget : mapGet acc x.entity_type with
        | none => rw [hget] at h2; simp at h2
        | some l =>
          rw [hget] at h2
          simp only [Option.getD_some] at h2
          exact hacc (x.entity_type, l) (mapGet_mem acc _ _ hget) a h2
      · rw [List.mem_singleton] at h2
        exact h2 ▸ hxs x (List.mem_cons_self _ _)

theorem processedEntities_sub (rs : List AnalyzerResult) :
    ∀ kv ∈ processedEntities (groupByType rs), kv.2 ∈ rs := by
  have hinner : ∀ (ys : List AnalyzerResult) (c : Str) (acc : List (Str × AnalyzerResult)),
      (∀ kv ∈ acc, kv.2 ∈ rs) → (∀ y ∈ ys, y ∈ rs) →
      ∀ kv ∈ ys.foldl (dedupStep c) acc, kv.2 ∈ rs := by
    intro ys
    induction ys with
    | nil => intro c acc hacc _; exact hacc
    | cons y ys ih =>
      intro c acc hacc hys
      rw [List.foldl_cons]
      refine ih c _ ?_ (fun z hz => hys z (List.mem_cons_of_mem _ hz))
      intro kv hkv
      simp only [dedupStep] at hkv
      by_cases hh : mapHas acc (mkKey c y.start y.stop) = true
      · rw [if_pos hh] at hkv
        exact hacc kv hkv
      · rw [if_neg hh] at hkv
        rcases mem_mapSet_subset _ _ _ kv hkv with h | h
        · exact hacc kv h
        · subst h
          exact hys y (List.mem_cons_self _ _)
  suffices h : ∀ (gs : List (Str × List AnalyzerResult)) (acc : List (Str × AnalyzerResult)),
      (∀ kv ∈ acc, kv.2 ∈ rs) → (∀ g ∈ gs, ∀ a ∈ g.2, a ∈ rs) →
      ∀ kv ∈ gs.foldl groupDedup acc, kv.2 ∈ rs by
    exact h (groupByType rs) [] (fun kv hkv => absurd hkv (List.not_mem_nil kv))
      (groupByType_sub rs)
  intro gs
  induction gs with
  | nil => intro acc hacc _; exact hacc
  | cons g gs ih =>
    intro acc hacc hgs
    rw [List.foldl_cons]
    refine ih _ ?_ (fun g2 hg2 => hgs g2 (List.mem_cons_of_mem _ hg2))
    rw [groupDedup]
    refine hinner _ _ _ hacc ?_
    intro y hy
    exact hgs g (List.mem_cons_self _ _) y
      ((stableSort_perm analyzerLe g.2).mem_iff.mp hy)

theorem buildPre_wellKeyed (T : Str) (anonEnts : List (Str × Str))
    (pe : List (Str × AnalyzerResult))
    (hdash : ∀ a ∈ mapValues pe, '-' ∉ a.entity_type) :
    ∀ kv ∈ buildPre T anonEnts pe, wellKeyedPair kv := by
  suffices h : ∀ (xs : List AnalyzerResult) (m0 : EMap),
      (∀ kv ∈ m0, wellKeyedPair kv) → (∀ x ∈ xs, '-' ∉ x.entity_type) →
      ∀ kv ∈ xs.foldl (buildPreStep T anonEnts) m0, wellKeyedPair kv by
    exact h (mapValues pe) [] (fun kv hkv => absurd hkv (List.not_mem_nil kv)) hdash
  intro xs
  induction xs with
  | nil => intro m0 hm0 _; exact hm0
  | cons x xs ih =>
    intro m0 hm0 hxs
    rw [List.foldl_cons]
    refine ih _ ?_ (fun y hy => hxs y (List.mem_cons_of_mem _ hy))
    intro kv hkv
    simp only [buildPreStep] at hkv
    by_cases hc : x.entity_type = personCat ∧ (jsSubstring T x.start x.stop).length < 3
    · rw [if_pos hc] at hkv
      exact hm0 kv hkv
    · rw [if_neg hc] at hkv
      rcases mem_mapSet_subset _ _ _ kv hkv with h | h
      · exact hm0 kv h
      · subst h
        exact ⟨Or.inl rfl, hxs x (List.mem_cons_self _ _)⟩

theorem buildPre_keys_nodup (T : Str) (anonEnts : List (Str × Str))
    (pe : List (Str × AnalyzerResult)) : (mapKeys (buildPre T anonEnts pe)).Nodup := by
  suffices h : ∀ (xs : List AnalyzerResult) (m0 : EMap),
      (mapKeys m0).Nodup → (mapKeys (xs.foldl (buildPreStep T anonEnts) m0)).Nodup by
    exact h (mapValues pe) [] (by simp [mapKeys])
  intro xs
  induction xs with
  | nil => intro m0 hm0; simpa using hm0
  | cons x xs ih =>
    intro m0 hm0
    rw [List.foldl_cons]
    refine ih _ ?_
    simp only [buildPreStep]
    by_cases hc : x.entity_type = personCat ∧ (jsSubstring T x.start x.stop).length < 3
    · rw [if_pos hc]; exact hm0
    · rw [if_neg hc]; exact mapKeys_nodup_mapSet _ _ _ hm0

theorem findBestMatch_wellKeyed (T : Str) (m : EMap) (c : Str) (hc : '-' ∉ c)
    (hwk : ∀ kv ∈ m, wellKeyedPair kv) :
    ∀ kv ∈ findBestMatch T m c, wellKeyedPair kv := by
  intro kv hkv
  simp only [findBestMatch] at hkv
  by_cases h1 : ((mapValues m).filter (fun x => x.entityType == c)).length ≤ 1
  · rw [if_pos h1] at hkv; exact hwk kv hkv
  · rw [if_neg h1] at hkv
    by_cases h2 : c = phoneCat
    · rw [if_pos h2] at hkv
      cases hs : stableSort phoneLe ((mapValues m).filter (fun x => x.entityType == c)) with
      | nil => rw [hs] at hkv; exact hwk kv hkv
      | cons w rest =>
        rw [hs] at hkv
        rcases mem_mapSet_subset _ _ _ kv hkv with h | h
        · exact hwk kv (List.mem_filter.mp h).1
        · subst h; exact ⟨Or.inr rfl, hc⟩
    · rw [if_neg h2] at hkv
      by_cases h3 : c = personCat
      · rw [if_pos h3] at hkv
        cases hs : stableSort personLe ((mapValues m).filter (fun x => x.entityType == c)) with
        | nil => rw [hs] at hkv; exact hwk kv hkv
        | cons w rest =>
          rw [hs] at hkv
          rcases mem_mapSet_subset _ _ _ kv hkv with h | h
          · exact hwk kv (List.mem_filter.mp h).1
          · subst h; exact ⟨Or.inr rfl, hc⟩
      · rw [if_neg h3] at hkv; exact hwk kv hkv

theorem findBestMatch_keys_nodup (T : Str) (m : EMap) (c : Str)
    (h : (mapKeys m).Nodup) : (mapKeys (findBestMatch T m c)).Nodup := by
  simp only [findBestMatch]
  by_cases h1 : ((mapValues m).filter (fun x => x.entityType == c)).length ≤ 1
  · rw [if_pos h1]; exact h
  · rw [if_neg h1]
    by_cases h2 : c = phoneCat
    · rw [if_pos h2]
      cases hs : stableSort phoneLe ((mapValues m).filter (fun x => x.entityType == c)) with
      | nil => exact h
      | cons w rest =>
        exact mapKeys_nodup_mapSet _ _ _ (mapKeys_nodup_deleteWhere m _ h)
    · rw [if_neg h2]
      by_cases h3 : c = personCat
      · rw [if_pos h3]
        cases hs : stableSort personLe ((mapValues m).filter (fun x => x.entityType == c)) with
        | nil => exact h
        | cons w rest =>
          exact mapKeys_nodup_mapSet _ _ _ (mapKeys_nodup_deleteWhere m _ h)
      · rw [if_neg h3]; exact h

/-- The key-value pairs of one category of the mapping table. -/
def catPairs (c : Str) (m : EMap) : EMap := m.filter (fun kv => kv.2.entityType == c)

theorem mapValues_filter_eq (c : Str) (m : EMap) :
    (mapValues m).filter (fun e => e.entityType == c) = mapValues (catPairs c m) := by
  induction m with
  | nil => rfl
  | cons kv m ih =>
    show (kv.2 :: mapValues m).filter (fun e => e.entityType == c) =
      mapValues ((kv :: m).filter (fun kv => kv.2.entityType == c))
    rw [List.filter_cons, List.filter_cons]
    by_cases hc : (kv.2.entityType == c) = true
    · rw [if_pos hc, if_pos hc]
      show kv.2 :: (mapValues m).filter (fun e => e.entityType == c) =
        kv.2 :: mapValues (catPairs c m)
      rw [ih]
    · rw [if_neg hc, if_neg hc]
      exact ih

theorem filter_filter_of_imp {α : Type} (p q : α → Bool) (l : List α)
    (h : ∀ x ∈ l, p x = true → q x = true) :
    (l.filter q).filter p = l.filter p := by
  induction l with
  | nil => rfl
  | cons x l ih =>
    have hrec := ih (fun y hy => h y (List.mem_cons_of_mem _ hy))
    rw [List.filter_cons]
    by_cases hq : q x = true
    · rw [if_pos hq, List.filter_cons, List.filter_cons]
      by_cases hp : p x = true
      · rw [if_pos hp, if_pos hp, hrec]
      · rw [if_neg hp, if_neg hp, hrec]
    · have hp : ¬ p x = true := fun hp => hq (h x (List.mem_cons_self _ _) hp)
      rw [if_neg hq, List.filter_cons, if_neg hp, hrec]

theorem headOf_bestKey (c : Str) : headOf (c ++ ['-']) (bestKey c) = true := by
  rw [bestKey]
  exact (headOf_iff _ _).mpr ⟨"best".data, by simp⟩


theorem deleteWhere_filter_other (m : EMap) (c c2 : Str) (hdashc : '-' ∉ c)
    (hwk : ∀ kv ∈ m, wellKeyedPair kv) (hne : c2 ≠ c) :
    (mapDeleteWhere m (fun k => headOf (c ++ ['-']) k)).filter
      (fun kv => kv.2.entityType == c2) = m.filter (fun kv => kv.2.entityType == c2) := by
  unfold mapDeleteWhere
  apply filter_filter_of_imp
  intro kv hkv hp
  simp only [beq_iff_eq] at hp
  show (!headOf (c ++ ['-']) kv.1) = true
  cases hh : headOf (c ++ ['-']) kv.1
  · rfl
  · have ht := (headOf_key_iff_type c kv hdashc (hwk kv hkv)).mp hh
    rw [hp] at ht
    exact absurd ht hne

theorem deleteWhere_filter_self (m : EMap) (c : Str) (hdashc : '-' ∉ c)
    (hwk : ∀ kv ∈ m, wellKeyedPair kv) :
    (mapDeleteWhere m (fun k => headOf (c ++ ['-']) k)).filter
      (fun kv => kv.2.entityType == c) = [] := by
  rw [List.filter_eq_nil_iff]
  intro kv hkv
  have hmem := List.mem_filter.mp hkv
  have hmem2 : headOf (c ++ ['-']) kv.1 = false := by simpa using hmem.2
  have hne : kv.2.entityType ≠ c := by
    intro ht
    have hh := (headOf_key_iff_type c kv hdashc (hwk kv hmem.1)).mpr ht
    rw [hmem2] at hh
    exact Bool.false_ne_true hh
  simp [hne]

theorem fbm_phone_pairs (T : Str) (m : EMap) (w : SensitiveEntity)
    (rest : List SensitiveEntity)
    (hwk : ∀ kv ∈ m, wellKeyedPair kv)
    (hsort : stableSort phoneLe
      ((mapValues m).filter (fun e => e.entityType == phoneCat)) = w :: rest)
    (h2 : ¬ ((mapValues m).filter (fun e => e.entityType == phoneCat)).length ≤ 1) :
    catPairs phoneCat (findBestMatch T m phoneCat) =
      [(bestKey phoneCat, ⟨w.original, w.anonymized, phoneCat, w.start, w.stop⟩)] ∧
    ∀ c2, c2 ≠ phoneCat → catPairs c2 (findBestMatch T m phoneCat) = catPairs c2 m := by
  rw [findBestMatch_phone_case T m w rest hsort h2]
  have hfresh : mapGet (mapDeleteWhere m (fun k => headOf (phoneCat ++ ['-']) k))
      (bestKey phoneCat) = none := by
    apply mapGet_eq_none
    intro kv hkv he
    have hmem := List.mem_filter.mp hkv
    have hmem2 : headOf (phoneCat ++ ['-']) kv.1 = false := by simpa using hmem.2
    have hh : headOf (phoneCat ++ ['-']) kv.1 = true := he ▸ headOf_bestKey phoneCat
    rw [hmem2] at hh
    exact Bool.false_ne_true hh
  rw [mapSet_fresh _ _ _ hfresh]
  have hdash : ('-' : Char) ∉ phoneCat := by decide
  constructor
  · rw [catPairs, List.filter_append, deleteWhere_filter_self m phoneCat hdash hwk,
      List.nil_append]
    simp
  · intro c2 hne
    rw [catPairs, catPairs, List.filter_append,
      deleteWhere_filter_other m phoneCat c2 hdash hwk hne]
    have hone : ([(bestKey phoneCat,
        (⟨w.original, w.anonymized, phoneCat, w.start, w.stop⟩ : SensitiveEntity))].filter
        (fun kv => kv.2.entityType == c2)) = [] := by
      simp only [List.filter_cons, List.filter_nil]
      rw [if_neg]
      simp only [beq_iff_eq]
      exact fun h => hne (by simpa using h.symm)
    rw [hone, List.append_nil]

theorem fbm_person_pairs (T : Str) (m : EMap) (w : SensitiveEntity)
    (rest : List SensitiveEntity)
    (hwk : ∀ kv ∈ m, wellKeyedPair kv)
    (hsort : stableSort personLe
      ((mapValues m).filter (fun e => e.entityType == personCat)) = w :: rest)
    (h2 : ¬ ((mapValues m).filter (fun e => e.entityType == personCat)).length ≤ 1) :
    catPairs personCat (findBestMatch T m personCat) =
      [(bestKey personCat, ⟨w.original, w.anonymized, personCat, w.start, w.stop⟩)] ∧
    ∀ c2, c2 ≠ personCat → catPairs c2 (findBestMatch T m personCat) = catPairs c2 m := by
  rw [findBestMatch_person_case T m w rest hsort h2]
  have hfresh : mapGet (mapDeleteWhere m (fun k => headOf (personCat ++ ['-']) k))
      (bestKey personCat) = none := by
    apply mapGet_eq_none
    intro kv hkv he
    have hmem := List.mem_filter.mp hkv
    have hmem2 : headOf (personCat ++ ['-']) kv.1 = false := by simpa using hmem.2
    have hh : headOf (personCat ++ ['-']) kv.1 = true := he ▸ headOf_bestKey personCat
    rw [hmem2] at hh
    exact Bool.false_ne_true hh
  rw [mapSet_fresh _ _ _ hfresh]
  have hdash : ('-' : Char) ∉ personCat := by decide
  constructor
  · rw [catPairs, List.filter_append, deleteWhere_filter_self m personCat hdash hwk,
      List.nil_append]
    simp
  · intro c2 hne
    rw [catPairs, catPairs, List.filter_append,
      deleteWhere_filter_other m personCat c2 hdash hwk hne]
    have hone : ([(bestKey personCat,
        (⟨w.original, w.anonymized, personCat, w.start, w.stop⟩ : SensitiveEntity))].filter
        (fun kv => kv.2.entityType == c2)) = [] := by
      simp only [List.filter_cons, List.filter_nil]
      rw [if_neg]
      simp only [beq_iff_eq]
      exact fun h => hne (by simpa using h.symm)
    rw [hone, List.append_nil]

theorem fbm_id_of_le_one (T : Str) (m : EMap) (c : Str)
    (h : ((mapValues m).filter (fun e => e.entityType == c)).length ≤ 1) :
    findBestMatch T m c = m := by
  simp only [findBestMatch]
  rw [if_pos h]

/-- The mapping table of `buildEntityMapping` before the two best-match
reductions. -/
def preMap (T : Str) (items : List AnonymizerItem) (rs : List AnalyzerResult) : EMap :=
  buildPre T (anonymizedEntitiesOf items) (processedEntities (groupByType rs))

theorem buildEntityMapping_eq (T : Str) (items : List AnonymizerItem)
    (rs : List AnalyzerResult) (hi : ¬ items.length = 0) :
    buildEntityMapping T items rs =
      findBestMatch T (findBestMatch T (preMap T items rs) phoneCat) personCat := by
  rw [buildEntityMapping, if_neg hi]
  rfl

theorem stableSort_cons_of_two {α : Type} (le : α → α → Bool) (l : List α)
    (h : ¬ l.length ≤ 1) : ∃ w rest, stableSort le l = w :: rest := by
  have hsl := (stableSort_perm le l).length_eq
  cases hs : stableSort le l with
  | nil => rw [hs] at hsl; simp at hsl; omega
  | cons w rest => exact ⟨w, rest, rfl⟩

theorem count_eq_catPairs_length (c : Str) (m : EMap) :
    ((mapValues m).filter (fun e => e.entityType == c)).length = (catPairs c m).length := by
  rw [mapValues_filter_eq]
  simp [mapValues]

/-- Claim C9: after reconciliation the table has no duplicate keys, at most
one PHONE_NUMBER and at most one PERSON entry remain, and whenever two or
more entries of such a category existed before reduction the surviving entry
of that category is exactly the sort winner, reinserted under the stable
best key rather than a positional key. -/
theorem c9_mapping_invariant (T : Str) (items : List AnonymizerItem)
    (rs : List AnalyzerResult)
    (hdash : ∀ r ∈ rs, '-' ∉ r.entity_type) (hi : items.length ≠ 0) :
    (mapKeys (buildEntityMapping T items rs)).Nodup ∧
    ((mapValues (buildEntityMapping T items rs)).filter
      (fun e => e.entityType == phoneCat)).length ≤ 1 ∧
    ((mapValues (buildEntityMapping T items rs)).filter
      (fun e => e.entityType == personCat)).length ≤ 1 ∧
    (2 ≤ ((mapValues (preMap T items rs)).filter
        (fun e => e.entityType == phoneCat)).length →
      ∃ w rest, stableSort phoneLe ((mapValues (preMap T items rs)).filter
          (fun e => e.entityType == phoneCat)) = w :: rest ∧
        catPairs phoneCat (buildEntityMapping T items rs) =
          [(bestKey phoneCat, ⟨w.original, w.anonymized, phoneCat, w.start, w.stop⟩)]) ∧
    (2 ≤ ((mapValues (preMap T items rs)).filter
        (fun e => e.entityType == personCat)).length →
      ∃ w rest, stableSort personLe ((mapValues (preMap T items rs)).filter
          (fun e => e.entityType == personCat)) = w :: rest ∧
        catPairs personCat (buildEntityMapping T items rs) =
          [(bestKey personCat, ⟨w.original, w.anonymized, personCat, w.start, w.stop⟩)]) := by
  rw [buildEntityMapping_eq T items rs hi]
  have hdashpre : ∀ a ∈ mapValues (processedEntities (groupByType rs)),
      '-' ∉ a.entity_type := by
    intro a ha
    simp only [mapValues, List.mem_map] at ha
    obtain ⟨kv, hkv, rfl⟩ := ha
    exact hdash kv.2 (processedEntities_sub rs kv hkv)
  have hwk_pre : ∀ kv ∈ preMap T items rs, wellKeyedPair kv :=
    buildPre_wellKeyed T _ _ hdashpre
  have hnodup_pre : (mapKeys (preMap T items rs)).Nodup := buildPre_keys_nodup T _ _
  have hwk_m1 : ∀ kv ∈ findBestMatch T (preMap T items rs) phoneCat, wellKeyedPair kv :=
    findBestMatch_wellKeyed T _ phoneCat (by decide) hwk_pre
  have hnodup_m1 : (mapKeys (findBestMatch T (preMap T items rs) phoneCat)).Nodup :=
    findBestMatch_keys_nodup T _ phoneCat hnodup_pre
  have hpersonPairs : catPairs personCat (findBestMatch T (preMap T items rs) phoneCat) =
      catPairs personCat (preMap T items rs) := by
    by_cases hp : ((mapValues (preMap T items rs)).filter
        (fun e => e.entityType == phoneCat)).length ≤ 1
    · rw [fbm_id_of_le_one T _ phoneCat hp]
    · obtain ⟨w, rest, hsort⟩ := stableSort_cons_of_two phoneLe _ hp
      exact (fbm_phone_pairs T _ w rest hwk_pre hsort hp).2 personCat (by decide)
  have hphonePairs21 : catPairs phoneCat
      (findBestMatch T (findBestMatch T (preMap T items rs) phoneCat) personCat) =
      catPairs phoneCat (findBestMatch T (preMap T items rs) phoneCat) := by
    by_cases hq : ((mapValues (findBestMatch T (preMap T items rs) phoneCat)).filter
        (fun e => e.entityType == personCat)).length ≤ 1
    · rw [fbm_id_of_le_one T _ personCat hq]
    · obtain ⟨w, rest, hsort⟩ := stableSort_cons_of_two personLe _ hq
      exact (fbm_person_pairs T _ w rest hwk_m1 hsort hq).2 phoneCat (by decide)
  have hpersonValues : (mapValues (findBestMatch T (preMap T items rs) phoneCat)).filter
      (fun e => e.entityType == personCat) =
      (mapValues (preMap T items rs)).filter (fun e => e.entityType == personCat) := by
    rw [mapValues_filter_eq, mapValues_filter_eq, hpersonPairs]
  refine ⟨?_, ?_, ?_, ?_, ?_⟩
  · exact findBestMatch_keys_nodup T _ personCat hnodup_m1
  · rw [count_eq_catPairs_length, hphonePairs21]
    by_cases hp : ((mapValues (preMap T items rs)).filter
        (fun e => e.entityType == phoneCat)).length ≤ 1
    · rw [fbm_id_of_le_one T _ phoneCat hp, ← count_eq_catPairs_length]
      exact hp
    · obtain ⟨w, rest, hsort⟩ := stableSort_cons_of_two phoneLe _ hp
      rw [(fbm_phone_pairs T _ w rest hwk_pre hsort hp).1]
      simp
  · rw [count_eq_catPairs_length]
    by_cases hq : ((mapValues (findBestMatch T (preMap T items rs) phoneCat)).filter
        (fun e => e.entityType == personCat)).length ≤ 1
    · rw [fbm_id_of_le_one T _ personCat hq, ← count_eq_catPairs_length]
      exact hq
    · obtain ⟨w, rest, hsort⟩ := stableSort_cons_of_two personLe _ hq
      rw [(fbm_person_pairs T _ w rest hwk_m1 hsort hq).1]
      simp
  · intro h2
    have hp : ¬ ((mapValues (preMap T items rs)).filter
        (fun e => e.entityType == phoneCat)).length ≤ 1 := by omega
    obtain ⟨w, rest, hsort⟩ := stableSort_cons_of_two phoneLe _ hp
    refine ⟨w, rest, hsort, ?_⟩
    rw [hphonePairs21]
    exact (fbm_phone_pairs T _ w rest hwk_pre hsort hp).1
  · intro h2
    have hq : ¬ ((mapValues (findBestMatch T (preMap T items rs) phoneCat)).filter
        (fun e => e.entityType == personCat)).length ≤ 1 := by
      rw [hpersonValues]
      omega
    obtain ⟨w, rest, hsort⟩ := stableSort_cons_of_two personLe _ hq
    refine ⟨w, rest, ?_, ?_⟩
    · rw [← hpersonValues]
      exact hsort
    · exact (fbm_person_pairs T _ w rest hwk_m1 hsort hq).1

/-- A text with two PERSON and two PHONE_NUMBER spans. -/
def crowdedText : Str := "Doe John Doe 555-1234 +1 555-123-4567".data

/-- Detector output with two spans of each reduced category. -/
def crowdedSpans : List AnalyzerResult :=
  [⟨"PERSON".data, 0, 3, 1⟩, ⟨"PERSON".data, 4, 12, 1⟩,
   ⟨"PHONE_NUMBER".data, 13, 21, 1⟩, ⟨"PHONE_NUMBER".data, 22, 37, 1⟩]

theorem c9_mapping_invariant_witness :
    (∀ r ∈ crowdedSpans, '-' ∉ r.entity_type) ∧
    (anonymizerItems crowdedSpans).length ≠ 0 ∧
    (mapKeys (buildEntityMapping crowdedText (anonymizerItems crowdedSpans)
      crowdedSpans)).Nodup :=
  ⟨by decide, by decide,
    (c9_mapping_invariant crowdedText (anonymizerItems crowdedSpans) crowdedSpans
      (by decide) (by decide)).1⟩

/-- The mapping entry the reconciliation produces for one detected span when
the anonymizer items are the collaborator model. -/
def entryOf (T : Str) (r : AnalyzerResult) : SensitiveEntity :=
  ⟨jsSubstring T r.start r.stop, phOf r.entity_type, r.entity_type, r.start, r.stop⟩

/-- Well-formed span list: positions non-decreasing, spans disjoint and
within the text. -/
def chainB (T : Str) : Nat → List AnalyzerResult → Bool
  | pos, [] => decide (pos ≤ T.length)
  | pos, r :: rest =>
    decide (pos ≤ r.start) && decide (r.start ≤ r.stop) && chainB T r.stop rest

theorem chainB_le (T : Str) : ∀ (rs : List AnalyzerResult) (pos : Nat),
    chainB T pos rs = true → pos ≤ T.length := by
  intro rs
  induction rs with
  | nil => intro pos h; simpa [chainB] using h
  | cons r rest ih =>
    intro pos h
    simp only [chainB, Bool.and_eq_true, decide_eq_true_eq] at h
    exact le_trans h.1.1 (le_trans h.1.2 (ih r.stop h.2))

theorem chainB_mono (T : Str) : ∀ (rs : List AnalyzerResult) (pos pos2 : Nat),
    pos2 ≤ pos → chainB T pos rs = true → chainB T pos2 rs = true := by
  intro rs
  cases rs with
  | nil =>
    intro pos pos2 hle h
    simp only [chainB, decide_eq_true_eq] at h ⊢
    omega
  | cons r rest =>
    intro pos pos2 hle h
    simp only [chainB, Bool.and_eq_true, decide_eq_true_eq] at h ⊢
    exact ⟨⟨by omega, h.1.2⟩, h.2⟩

theorem dropTakeAppend {α : Type} (l : List α) (a b : Nat) (hab : a ≤ b) :
    (l.take b).drop a ++ l.drop b = l.drop a := by
  by_cases h : a ≤ l.length
  · conv_rhs => rw [← List.take_append_drop b l, List.drop_append_eq_append_drop]
    have h2 : a - (l.take b).length = 0 := by
      rw [List.length_take]; omega
    rw [h2, List.drop_zero]
  · push_neg at h
    have h1 : l.drop a = [] := List.drop_eq_nil_of_le (by omega)
    have h2 : l.drop b = [] := List.drop_eq_nil_of_le (by omega)
    have h3 : (l.take b).drop a = [] := List.drop_eq_nil_of_le (by
      rw [List.length_take]; omega)
    rw [h1, h2, h3]
    rfl

theorem sliceMerge (T : Str) (a b c : Nat) (hab : a ≤ b) (hbc : b ≤ c) :
    (T.take b).drop a ++ (T.take c).drop b = (T.take c).drop a := by
  have h := dropTakeAppend (T.take c) a b hab
  rw [List.take_take, Nat.min_eq_left hbc] at h
  exact h

theorem jsSubstring_eq (T : Str) (a b : Nat) (hab : a ≤ b) (hb : b ≤ T.length) :
    jsSubstring T a b = (T.take b).drop a := by
  have h1 : max (min a T.length) (min b T.length) = b := by omega
  have h2 : min (min a T.length) (min b T.length) = a := by omega
  simp only [jsSubstring]
  rw [h1, h2]

/-- The intermediate deanonymization state: the spans whose placeholder has
already been processed show their original slice, the others still show
their placeholder. -/
def restoreState (T : Str) (done : List Str) : Nat → List AnalyzerResult → Str
  | pos, [] => T.drop pos
  | pos, r :: rest =>
    (T.take r.start).drop pos ++
      (if phOf r.entity_type ∈ done then jsSubstring T r.start r.stop
       else phOf r.entity_type) ++
      restoreState T done r.stop rest

theorem anonymizerText_eq_restore (T : Str) : ∀ (rs : List AnalyzerResult) (pos : Nat),
    anonymizerText T pos rs = restoreState T [] pos rs := by
  intro rs
  induction rs with
  | nil => intro pos; rfl
  | cons r rest ih =>
    intro pos
    rw [anonymizerText, restoreState, if_neg (List.not_mem_nil _), ih]

theorem restoreState_skip (T : Str) (done : List Str) (pos : Nat) (r : AnalyzerResult)
    (rest : List AnalyzerResult) (hdone : phOf r.entity_type ∈ done)
    (hps : pos ≤ r.start) (hss : r.start ≤ r.stop)
    (hrest : chainB T r.stop rest = true) :
    restoreState T done pos (r :: rest) = restoreState T done pos rest := by
  rw [restoreState, if_pos hdone]
  have hstop : r.stop ≤ T.length := chainB_le T rest r.stop hrest
  rw [jsSubstring_eq T r.start r.stop hss hstop]
  cases rest with
  | nil =>
    rw [restoreState, restoreState]
    rw [sliceMerge T pos r.start r.stop hps hss,
      dropTakeAppend T pos r.stop (le_trans hps hss)]
  | cons r2 rest2 =>
    simp only [chainB, Bool.and_eq_true, decide_eq_true_eq] at hrest
    rw [restoreState, restoreState]
    rw [sliceMerge T pos r.start r.stop hps hss]
    rw [← List.append_assoc, ← List.append_assoc,
      sliceMerge T pos r.stop r2.start (le_trans hps hss) hrest.1.1]

theorem restoreState_congr (T : Str) (d1 d2 : List Str)
    (h : ∀ x, x ∈ d1 ↔ x ∈ d2) : ∀ (rs : List AnalyzerResult) (pos : Nat),
    restoreState T d1 pos rs = restoreState T d2 pos rs := by
  intro rs
  induction rs with
  | nil => intro pos; rfl
  | cons r rest ih =>
    intro pos
    rw [restoreState, restoreState, ih]
    by_cases hm : phOf r.entity_type ∈ d1
    · rw [if_pos hm, if_pos ((h _).mp hm)]
    · rw [if_neg hm, if_neg (fun h2 => hm ((h _).mpr h2))]

theorem restoreState_cons_irrelevant (T : Str) (p : Str) (done : List Str) :
    ∀ (rs : List AnalyzerResult) (pos : Nat),
    (∀ r ∈ rs, phOf r.entity_type ≠ p) →
    restoreState T (p :: done) pos rs = restoreState T done pos rs := by
  intro rs
  induction rs with
  | nil => intro pos _; rfl
  | cons r rest ih =>
    intro pos hne
    rw [restoreState, restoreState, ih _ (fun r2 h2 => hne r2 (List.mem_cons_of_mem _ h2))]
    by_cases hm : phOf r.entity_type ∈ done
    · rw [if_pos hm, if_pos (List.mem_cons_of_mem _ hm)]
    · rw [if_neg hm, if_neg ?hnp]
      case hnp =>
        intro hc
        rcases List.mem_cons.mp hc with h2 | h2
        · exact hne r (List.mem_cons_self _ _) h2
        · exact hm h2

theorem not_occ_restore (T p : Str) (done : List Str) (hp : bracketShapedB p = true)
    (hpT : ¬ occP p T) :
    ∀ (rs : List AnalyzerResult) (pos : Nat), chainB T pos rs = true →
    (∀ r ∈ rs, bracketShapedB (phOf r.entity_type) = true) →
    (∀ r ∈ rs, phOf r.entity_type ∉ done → phOf r.entity_type ≠ p) →
    ¬ occP p (restoreState T done pos rs) := by
  intro rs
  induction rs with
  | nil =>
    intro pos _ _ _
    rintro ⟨i, hi⟩
    rw [restoreState, List.drop_drop] at hi
    exact hpT ⟨pos + i, hi⟩
  | cons r rest ih =>
    intro pos hchain hbr hne
    simp only [chainB, Bool.and_eq_true, decide_eq_true_eq] at hchain
    obtain ⟨⟨h1, h2⟩, h3⟩ := hchain
    by_cases hdone : phOf r.entity_type ∈ done
    · rw [restoreState_skip T done pos r rest hdone h1 h2 h3]
      exact ih pos (chainB_mono T rest r.stop pos (le_trans h1 h2) h3)
        (fun r2 hm => hbr r2 (List.mem_cons_of_mem _ hm))
        (fun r2 hm => hne r2 (List.mem_cons_of_mem _ hm))
    · rw [restoreState, if_neg hdone]
      refine not_occ_glue p _ _ _ hp (hbr r (List.mem_cons_self _ _))
        (Ne.symm (hne r (List.mem_cons_self _ _) hdone)) ?_ ?_
      · intro hocc
        exact hpT (occP_slice p T pos r.start (bracketShapedB_ne_nil p hp) hocc)
      · exact ih r.stop h3 (fun r2 hm => hbr r2 (List.mem_cons_of_mem _ hm))
          (fun r2 hm => hne r2 (List.mem_cons_of_mem _ hm))

theorem restore_step (T p : Str) (done : List Str)
    (hp : bracketShapedB p = true) (hpd : p ∉ done) (hpT : ¬ occP p T) :
    ∀ (rs : List AnalyzerResult) (pos : Nat) (rj : AnalyzerResult),
    rj ∈ rs → phOf rj.entity_type = p →
    chainB T pos rs = true →
    (∀ r ∈ rs, bracketShapedB (phOf r.entity_type) = true) →
    (rs.map (fun r => phOf r.entity_type)).Nodup →
    literalReplace p (jsSubstring T rj.start rj.stop) (restoreState T done pos rs) =
      restoreState T (p :: done) pos rs := by
  intro rs
  induction rs with
  | nil => intro pos rj hmem; exact absurd hmem (List.not_mem_nil _)
  | cons r rest ih =>
    intro pos rj hmem hph hchain hbr hnd
    simp only [chainB, Bool.and_eq_true, decide_eq_true_eq] at hchain
    obtain ⟨⟨h1, h2⟩, h3⟩ := hchain
    rw [List.map_cons, List.nodup_cons] at hnd
    obtain ⟨hnd1, hnd2⟩ := hnd
    have hbrtail : ∀ r2 ∈ rest, bracketShapedB (phOf r2.entity_type) = true :=
      fun r2 hm => hbr r2 (List.mem_cons_of_mem _ hm)
    rcases List.mem_cons.mp hmem with heq | hmem2
    · subst heq
      have hrestne : ∀ r2 ∈ rest, phOf r2.entity_type ≠ p := by
        intro r2 hm h2eq
        apply hnd1
        rw [hph]
        exact List.mem_map.mpr ⟨r2, hm, h2eq⟩
      have hg : ¬ occP p ((T.take rj.start).drop pos) := fun hocc =>
        hpT (occP_slice p T pos rj.start (bracketShapedB_ne_nil p hp) hocc)
      have hw : ¬ occP p (restoreState T done rj.stop rest) :=
        not_occ_restore T p done hp hpT rest rj.stop h3 hbrtail
          (fun r2 hm _ => hrestne r2 hm)
      rw [restoreState, restoreState, hph, if_neg hpd, if_pos (List.mem_cons_self _ _)]
      rw [literalReplace_glue_hit p (jsSubstring T rj.start rj.stop) _ _ hp hg hw]
      rw [restoreState_cons_irrelevant T p done rest rj.stop hrestne]
    · have hrne : phOf r.entity_type ≠ p := by
        intro h2eq
        apply hnd1
        rw [h2eq, ← hph]
        exact List.mem_map.mpr ⟨rj, hmem2, rfl⟩
      by_cases hdone : phOf r.entity_type ∈ done
      · rw [restoreState_skip T done pos r rest hdone h1 h2 h3,
          restoreState_skip T (p :: done) pos r rest (List.mem_cons_of_mem _ hdone) h1 h2 h3]
        exact ih pos rj hmem2 hph (chainB_mono T rest r.stop pos (le_trans h1 h2) h3)
          hbrtail hnd2
      · have hdone2 : phOf r.entity_type ∉ p :: done := by
          intro hc
          rcases List.mem_cons.mp hc with hc | hc
          · exact hrne hc
          · exact hdone hc
        have hg : ¬ occP p ((T.take r.start).drop pos) := fun hocc =>
          hpT (occP_slice p T pos r.start (bracketShapedB_ne_nil p hp) hocc)
        rw [restoreState, restoreState, if_neg hdone, if_neg hdone2]
        rw [literalReplace_glue_skip p (jsSubstring T rj.start rj.stop) _ _ _ hp
          (hbr r (List.mem_cons_self _ _)) (Ne.symm hrne) hg]
        rw [ih r.stop rj hmem2 hph h3 hbrtail hnd2]

theorem restore_complete (T : Str) (done : List Str) :
    ∀ (rs : List AnalyzerResult) (pos : Nat), chainB T pos rs = true →
    (∀ r ∈ rs, phOf r.entity_type ∈ done) →
    restoreState T done pos rs = T.drop pos := by
  intro rs
  induction rs with
  | nil => intro pos _ _; rfl
  | cons r rest ih =>
    intro pos hchain hall
    simp only [chainB, Bool.and_eq_true, decide_eq_true_eq] at hchain
    obtain ⟨⟨h1, h2⟩, h3⟩ := hchain
    rw [restoreState_skip T done pos r rest (hall r (List.mem_cons_self _ _)) h1 h2 h3]
    exact ih pos (chainB_mono T rest r.stop pos (le_trans h1 h2) h3)
      (fun r2 hm => hall r2 (List.mem_cons_of_mem _ hm))

theorem restore_fold (T : Str) (rs : List AnalyzerResult)
    (hchain : chainB T 0 rs = true)
    (hbr : ∀ r ∈ rs, bracketShapedB (phOf r.entity_type) = true)
    (hnd : (rs.map (fun r => phOf r.entity_type)).Nodup)
    (hnocc : ∀ r ∈ rs, ¬ occP (phOf r.entity_type) T) :
    ∀ (es : List SensitiveEntity) (done : List Str),
    (∀ e ∈ es, ∃ r ∈ rs, e = entryOf T r) →
    (es.map (fun e => e.anonymized)).Nodup →
    (∀ e ∈ es, e.anonymized ∉ done) →
    es.foldl (fun acc e => literalReplace e.anonymized e.original acc)
        (restoreState T done 0 rs) =
      restoreState T (es.map (fun e => e.anonymized) ++ done) 0 rs := by
  intro es
  induction es with
  | nil => intro done _ _ _; rfl
  | cons e es ih =>
    intro done hfrom hnd2 hnew
    rw [List.map_cons, List.nodup_cons] at hnd2
    obtain ⟨hh, ht⟩ := hnd2
    obtain ⟨r, hr, he⟩ := hfrom e (List.mem_cons_self _ _)
    rw [List.foldl_cons]
    have hstep : literalReplace e.anonymized e.original (restoreState T done 0 rs) =
        restoreState T (e.anonymized :: done) 0 rs := by
      subst he
      exact restore_step T (phOf r.entity_type) done (hbr r hr)
        (hnew _ (List.mem_cons_self _ _)) (hnocc r hr) rs 0 r hr rfl hchain hbr hnd
    rw [hstep]
    rw [ih (e.anonymized :: done)
      (fun e2 hm => hfrom e2 (List.mem_cons_of_mem _ hm)) ht
      (fun e2 hm hc => by
        rcases List.mem_cons.mp hc with hc | hc
        · exact hh (List.mem_map.mpr ⟨e2, hm, hc⟩)
        · exact hnew e2 (List.mem_cons_of_mem _ hm) hc)]
    apply restoreState_congr
    intro x
    simp only [List.map_cons, List.cons_append, List.mem_append, List.mem_cons]
    tauto

theorem mapGet_none_iff_not_mem_keys {α : Type} (m : List (Str × α)) (k : Str) :
    mapGet m k = none ↔ k ∉ mapKeys m := by
  rw [← mapGet_isSome_iff_mem_keys]
  cases mapGet m k <;> simp

theorem mapGet_append_none {α : Type} (m : List (Str × α)) (k k2 : Str) (v : α)
    (h : mapGet m k2 = none) (hne : k2 ≠ k) : mapGet (m ++ [(k, v)]) k2 = none := by
  rw [mapGet_append_right m _ _ h, mapGet, if_neg hne]
  rfl

theorem cats_nodup_of_ph_nodup (rs : List AnalyzerResult)
    (h : (rs.map (fun r => phOf r.entity_type)).Nodup) :
    (rs.map (fun r => r.entity_type)).Nodup := by
  have h2 : rs.map (fun r => phOf r.entity_type) =
      (rs.map (fun r => r.entity_type)).map phOf := by
    rw [List.map_map]
    rfl
  rw [h2] at h
  exact List.Nodup.of_map phOf h

theorem mkKey_cat_inj (c1 c2 : Str) (a1 b1 a2 b2 : Nat) (h1 : '-' ∉ c1) (h2 : '-' ∉ c2)
    (heq : mkKey c1 a1 b1 = mkKey c2 a2 b2) : c1 = c2 := by
  unfold mkKey at heq
  exact (sepInj '-' c1 c2 _ _ h1 h2 heq).1

theorem literalNewValue_mem (c v : Str) (h : literalNewValue c = some v) :
    (c, Transform.replace v) ∈ buildAnonymizersConfig := by
  rw [literalNewValue] at h
  cases hg : mapGet buildAnonymizersConfig c with
  | none => rw [hg] at h; simp at h
  | some t =>
    rw [hg] at h
    cases t with
    | replace w =>
      have hwv : w = v := by simpa using h
      subst hwv
      exact mapGet_mem _ _ _ hg
    | mask a b c2 => simp at h
    | hash => simp at h

theorem config_replace_values :
    (buildAnonymizersConfig.all (fun kv =>
      match kv.2 with
      | Transform.replace w => !w.isEmpty && bracketShapedB w
      | _ => true)) = true := by decide

theorem config_keys_no_dash :
    (buildAnonymizersConfig.all (fun kv => !kv.1.contains '-')) = true := by decide

theorem phOf_props (c : Str) (h : isLiteralCat c = true) :
    (phOf c).isEmpty = false ∧ bracketShapedB (phOf c) = true := by
  rw [isLiteralCat] at h
  cases hv : literalNewValue c with
  | none => rw [hv] at h; simp at h
  | some v =>
    rw [phOf, hv, Option.getD_some]
    have hmem := literalNewValue_mem c v hv
    have hall := config_replace_values
    rw [List.all_eq_true] at hall
    have h3 : (!v.isEmpty && bracketShapedB v) = true := hall _ hmem
    rw [Bool.and_eq_true] at h3
    exact ⟨by simpa using h3.1, h3.2⟩

theorem litCat_no_dash (c : Str) (h : isLiteralCat c = true) : '-' ∉ c := by
  rw [isLiteralCat] at h
  cases hv : literalNewValue c with
  | none => rw [hv] at h; simp at h
  | some v =>
    have hmem := literalNewValue_mem c v hv
    have hall := config_keys_no_dash
    rw [List.all_eq_true] at hall
    have h2 : (!(c.contains '-')) = true := hall _ hmem
    intro hd
    have h4 : c.contains '-' = true := List.elem_iff.mpr hd
    rw [h4] at h2
    simp at h2

theorem switch_eq_phOf (c ph : Str) (h : switchPlaceholder c = some ph) : ph = phOf c := by
  rw [switchPlaceholder] at h
  split_ifs at h with h1 h2 h3 h4 h5
  · subst h1
    simp only [Option.some.injEq] at h
    subst h
    decide
  · subst h2
    simp only [Option.some.injEq] at h
    subst h
    decide
  · subst h3
    simp only [Option.some.injEq] at h
    subst h
    decide
  · subst h4
    simp only [Option.some.injEq] at h
    subst h
    decide
  · subst h5
    simp only [Option.some.injEq] at h
    subst h
    decide

theorem getLast_eq_of_all {α : Type} (l : List α) (x : α) (hne : l ≠ [])
    (hall : ∀ y ∈ l, y = x) : l.getLast? = some x := by
  cases hl : l.getLast? with
  | none => exact absurd (List.getLast?_eq_none_iff.mp hl) hne
  | some y =>
    obtain ⟨ys, hys⟩ := List.getLast?_eq_some_iff.mp hl
    have hy : y ∈ l := by rw [hys]; simp
    rw [hall y hy]

theorem anonEnts_get (rs : List AnalyzerResult) (r : AnalyzerResult) (hr : r ∈ rs)
    (hlit : isLiteralCat r.entity_type = true) :
    mapGet (anonymizedEntitiesOf (anonymizerItems rs)) r.entity_type =
      some (phOf r.entity_type) := by
  rw [anonymizedEntitiesOf_get]
  have hmem0 : (⟨r.entity_type, some (phOf r.entity_type)⟩ : AnonymizerItem) ∈
      (anonymizerItems rs).filter (fun i => i.entity_type == r.entity_type) := by
    rw [List.mem_filter]
    refine ⟨?_, by simp⟩
    rw [anonymizerItems, List.mem_map]
    exact ⟨r, hr, rfl⟩
  have hallx : ∀ y ∈ (anonymizerItems rs).filter (fun i => i.entity_type == r.entity_type),
      y = ⟨r.entity_type, some (phOf r.entity_type)⟩ := by
    intro y hy
    rw [List.mem_filter] at hy
    obtain ⟨hy1, hy2⟩ := hy
    rw [anonymizerItems, List.mem_map] at hy1
    obtain ⟨r2, -, rfl⟩ := hy1
    have h2 : r2.entity_type = r.entity_type := by simpa using hy2
    rw [h2]
  rw [getLast_eq_of_all _ _ (List.ne_nil_of_mem hmem0) hallx]
  simp only [Option.map_some']
  cases hsw : switchPlaceholder r.entity_type with
  | some ph => rw [switch_eq_phOf _ _ hsw]
  | none => simp [jsOrText, (phOf_props _ hlit).1]

theorem groupByType_singletons : ∀ (xs : List AnalyzerResult)
    (acc : List (Str × List AnalyzerResult)),
    (∀ x ∈ xs, ∀ kv ∈ acc, kv.1 ≠ x.entity_type) →
    (xs.map (fun r => r.entity_type)).Nodup →
    xs.foldl groupStep acc = acc ++ xs.map (fun r => (r.entity_type, [r])) := by
  intro xs
  induction xs with
  | nil => intro acc _ _; simp
  | cons x xs ih =>
    intro acc hfresh hnd
    rw [List.map_cons, List.nodup_cons] at hnd
    obtain ⟨hnd1, hnd2⟩ := hnd
    rw [List.foldl_cons]
    have hnone : mapGet acc x.entity_type = none :=
      mapGet_eq_none acc _ (fun kv hkv => hfresh x (List.mem_cons_self _ _) kv hkv)
    have hstep : groupStep acc x = acc ++ [(x.entity_type, [x])] := by
      rw [groupStep, hnone, mapSet_fresh acc _ _ hnone]
      simp
    rw [hstep, ih (acc ++ [(x.entity_type, [x])]) ?fresh hnd2]
    · simp
    case fresh =>
      intro y hy kv hkv
      rcases List.mem_append.mp hkv with hkv | hkv
      · exact hfresh y (List.mem_cons_of_mem _ hy) kv hkv
      · have hkv2 : kv = (x.entity_type, [x]) := by simpa using hkv
        rw [hkv2]
        intro hc
        have hc2 : x.entity_type = y.entity_type := hc
        exact hnd1 (hc2.symm ▸ List.mem_map.mpr ⟨y, hy, rfl⟩)

theorem processedEntities_singletons : ∀ (xs : List AnalyzerResult)
    (acc : List (Str × AnalyzerResult)),
    (∀ x ∈ xs, mapGet acc (mkKey x.entity_type x.start x.stop) = none) →
    (∀ x ∈ xs, '-' ∉ x.entity_type) →
    (xs.map (fun r => r.entity_type)).Nodup →
    (xs.map (fun r => (r.entity_type, [r]))).foldl groupDedup acc =
      acc ++ xs.map (fun r => (mkKey r.entity_type r.start r.stop, r)) := by
  intro xs
  induction xs with
  | nil => intro acc _ _ _; simp
  | cons x xs ih =>
    intro acc hfresh hdash hnd
    rw [List.map_cons, List.nodup_cons] at hnd
    obtain ⟨hnd1, hnd2⟩ := hnd
    rw [List.map_cons, List.foldl_cons]
    have hnone := hfresh x (List.mem_cons_self _ _)
    have hstep : groupDedup acc (x.entity_type, [x]) =
        acc ++ [(mkKey x.entity_type x.start x.stop, x)] := by
      show (stableSort analyzerLe [x]).foldl (dedupStep x.entity_type) acc = _
      have hsort : stableSort analyzerLe [x] = [x] := rfl
      rw [hsort, List.foldl_cons, List.foldl_nil, dedupStep]
      rw [if_neg (by simp [mapHas, hnone]), mapSet_fresh acc _ _ hnone]
    rw [hstep, ih (acc ++ [(mkKey x.entity_type x.start x.stop, x)]) ?fresh
      (fun y hy => hdash y (List.mem_cons_of_mem _ hy)) hnd2]
    · simp
    case fresh =>
      intro y hy
      refine mapGet_append_none acc _ _ _ (hfresh y (List.mem_cons_of_mem _ hy)) ?_
      intro hc
      have hcat : y.entity_type = x.entity_type :=
        mkKey_cat_inj _ _ _ _ _ _ (hdash y (List.mem_cons_of_mem _ hy))
          (hdash x (List.mem_cons_self _ _)) hc
      exact hnd1 (hcat ▸ List.mem_map.mpr ⟨y, hy, rfl⟩)

theorem buildPreStep_fold (T : Str) (rs0 : List AnalyzerResult) :
    ∀ (xs : List AnalyzerResult) (acc : EMap),
    (∀ x ∈ xs, x ∈ rs0) →
    (∀ x ∈ xs, isLiteralCat x.entity_type = true) →
    (∀ x ∈ xs, x.entity_type = personCat → 3 ≤ (jsSubstring T x.start x.stop).length) →
    (∀ x ∈ xs, mapGet acc (mkKey x.entity_type x.start x.stop) = none) →
    (xs.map (fun r => r.entity_type)).Nodup →
    xs.foldl (buildPreStep T (anonymizedEntitiesOf (anonymizerItems rs0))) acc =
      acc ++ xs.map (fun r => (mkKey r.entity_type r.start r.stop, entryOf T r)) := by
  intro xs
  induction xs with
  | nil => intro acc _ _ _ _ _; simp
  | cons x xs ih =>
    intro acc hsub hlit hperson hfresh hnd
    rw [List.map_cons, List.nodup_cons] at hnd
    obtain ⟨hnd1, hnd2⟩ := hnd
    rw [List.foldl_cons]
    have hnone := hfresh x (List.mem_cons_self _ _)
    have hget := anonEnts_get rs0 x (hsub x (List.mem_cons_self _ _))
      (hlit x (List.mem_cons_self _ _))
    have hstep : buildPreStep T (anonymizedEntitiesOf (anonymizerItems rs0)) acc x =
        acc ++ [(mkKey x.entity_type x.start x.stop, entryOf T x)] := by
      rw [buildPreStep]
      simp only [hget, Option.getD_some]
      rw [if_neg ?skip, mapSet_fresh acc _ _ hnone]
      rfl
      case skip =>
        rintro ⟨hcat, hlen⟩
        exact absurd (hperson x (List.mem_cons_self _ _) hcat) (by omega)
    rw [hstep, ih (acc ++ [(mkKey x.entity_type x.start x.stop, entryOf T x)])
      (fun y hy => hsub y (List.mem_cons_of_mem _ hy))
      (fun y hy => hlit y (List.mem_cons_of_mem _ hy))
      (fun y hy => hperson y (List.mem_cons_of_mem _ hy)) ?fresh hnd2]
    · simp
    case fresh =>
      intro y hy
      refine mapGet_append_none acc _ _ _ (hfresh y (List.mem_cons_of_mem _ hy)) ?_
      intro hc
      have hcat : y.entity_type = x.entity_type :=
        mkKey_cat_inj _ _ _ _ _ _
          (litCat_no_dash _ (hlit y (List.mem_cons_of_mem _ hy)))
          (litCat_no_dash _ (hlit x (List.mem_cons_self _ _))) hc
      exact hnd1 (hcat ▸ List.mem_map.mpr ⟨y, hy, rfl⟩)

theorem foldl_congr_mem {α β : Type} (f g : β → α → β) : ∀ (l : List α) (b : β),
    (∀ a ∈ l, ∀ acc, f acc a = g acc a) → l.foldl f b = l.foldl g b := by
  intro l
  induction l with
  | nil => intro b _; rfl
  | cons a l ih =>
    intro b h
    rw [List.foldl_cons, List.foldl_cons, h a (List.mem_cons_self _ _) b]
    exact ih _ (fun a2 h2 acc => h a2 (List.mem_cons_of_mem _ h2) acc)

theorem count_filter_le_one {α : Type} (f : α → Str) : ∀ (l : List α) (c : Str),
    (l.map f).Nodup → (l.filter (fun x => f x == c)).length ≤ 1 := by
  intro l
  induction l with
  | nil => intro c _; simp
  | cons x l ih =>
    intro c hnd
    rw [List.map_cons, List.nodup_cons] at hnd
    obtain ⟨h1, h2⟩ := hnd
    rw [List.filter_cons]
    by_cases hx : (f x == c) = true
    · rw [if_pos hx]
      have hnil : l.filter (fun y => f y == c) = [] := by
        rw [List.filter_eq_nil_iff]
        intro y hy hc
        have hfy : f y = c := by simpa using hc
        have hfx : f x = c := by simpa using hx
        apply h1
        rw [hfx, ← hfy]
        exact List.mem_map.mpr ⟨y, hy, rfl⟩
      rw [hnil]
      simp
    · rw [if_neg hx]
      exact ih c h2

theorem pairs_values (T : Str) (rs : List AnalyzerResult) :
    mapValues (rs.map (fun r => (mkKey r.entity_type r.start r.stop, entryOf T r))) =
      rs.map (fun r => entryOf T r) := by
  rw [mapValues, List.map_map]
  rfl

theorem pairs_filter_le_one (T : Str) (rs : List AnalyzerResult) (c : Str)
    (hnd : (rs.map (fun r => r.entity_type)).Nodup) :
    ((rs.map (fun r => entryOf T r)).filter (fun e => e.entityType == c)).length ≤ 1 := by
  have h : (rs.map (fun r => entryOf T r)).map (fun e => e.entityType) =
      rs.map (fun r => r.entity_type) := by
    rw [List.map_map]
    rfl
  exact count_filter_le_one (fun e : SensitiveEntity => e.entityType)
    (rs.map (fun r => entryOf T r)) c (by rw [h]; exact hnd)

theorem preMap_eq (T : Str) (rs : List AnalyzerResult)
    (hlit : ∀ r ∈ rs, isLiteralCat r.entity_type = true)
    (hnd : (rs.map (fun r => phOf r.entity_type)).Nodup)
    (hperson : ∀ r ∈ rs, r.entity_type = personCat →
      3 ≤ (jsSubstring T r.start r.stop).length) :
    preMap T (anonymizerItems rs) rs =
      rs.map (fun r => (mkKey r.entity_type r.start r.stop, entryOf T r)) := by
  have hcat := cats_nodup_of_ph_nodup rs hnd
  have hdash : ∀ r ∈ rs, '-' ∉ r.entity_type := fun r hr => litCat_no_dash _ (hlit r hr)
  rw [preMap, groupByType,
    groupByType_singletons rs [] (fun x _ kv hkv => absurd hkv (List.not_mem_nil kv)) hcat,
    List.nil_append, processedEntities,
    processedEntities_singletons rs [] (fun x _ => rfl) hdash hcat,
    List.nil_append, buildPre]
  have hv : mapValues (rs.map (fun r => (mkKey r.entity_type r.start r.stop, r))) = rs := by
    rw [mapValues, List.map_map]
    exact List.map_id rs
  rw [hv, buildPreStep_fold T rs rs [] (fun x hx => hx) hlit hperson (fun x _ => rfl) hcat,
    List.nil_append]

theorem buildEntityMapping_pairs (T : Str) (rs : List AnalyzerResult)
    (hlit : ∀ r ∈ rs, isLiteralCat r.entity_type = true)
    (hnd : (rs.map (fun r => phOf r.entity_type)).Nodup)
    (hperson : ∀ r ∈ rs, r.entity_type = personCat →
      3 ≤ (jsSubstring T r.start r.stop).length) :
    buildEntityMapping T (anonymizerItems rs) rs =
      rs.map (fun r => (mkKey r.entity_type r.start r.stop, entryOf T r)) := by
  cases rs with
  | nil => rfl
  | cons r0 rs0 =>
    have hi : ¬ (anonymizerItems (r0 :: rs0)).length = 0 := by
      simp [anonymizerItems]
    have hcat := cats_nodup_of_ph_nodup _ hnd
    rw [buildEntityMapping_eq T _ _ hi, preMap_eq T (r0 :: rs0) hlit hnd hperson]
    have h1 : ((mapValues ((r0 :: rs0).map
        (fun r => (mkKey r.entity_type r.start r.stop, entryOf T r)))).filter
        (fun e => e.entityType == phoneCat)).length ≤ 1 := by
      rw [pairs_values]
      exact pairs_filter_le_one T _ _ hcat
    rw [fbm_id_of_le_one T _ phoneCat h1]
    have h2 : ((mapValues ((r0 :: rs0).map
        (fun r => (mkKey r.entity_type r.start r.stop, entryOf T r)))).filter
        (fun e => e.entityType == personCat)).length ≤ 1 := by
      rw [pairs_values]
      exact pairs_filter_le_one T _ _ hcat
    rw [fbm_id_of_le_one T _ personCat h2]

theorem deanon_fold_restores (T : Str) (rs : List AnalyzerResult)
    (hchain : chainB T 0 rs = true)
    (hbr : ∀ r ∈ rs, bracketShapedB (phOf r.entity_type) = true)
    (hnd : (rs.map (fun r => phOf r.entity_type)).Nodup)
    (hnocc : ∀ r ∈ rs, ¬ occP (phOf r.entity_type) T)
    (hdollar : ∀ r ∈ rs, noSpecialDollar (jsSubstring T r.start r.stop) = true)
    (es : List SensitiveEntity)
    (hperm : es.Perm (rs.map (fun r => entryOf T r))) :
    es.foldl (fun result e => replaceAll e.anonymized e.original result)
      (anonymizerText T 0 rs) = T := by
  have hfrom : ∀ e ∈ es, ∃ r ∈ rs, e = entryOf T r := by
    intro e he
    have he2 := hperm.mem_iff.mp he
    rw [List.mem_map] at he2
    obtain ⟨r, hr, hre⟩ := he2
    exact ⟨r, hr, hre.symm⟩
  have hbridge : es.foldl (fun result e => replaceAll e.anonymized e.original result)
      (anonymizerText T 0 rs) =
    es.foldl (fun result e => literalReplace e.anonymized e.original result)
      (anonymizerText T 0 rs) := by
    apply foldl_congr_mem
    intro e he acc
    obtain ⟨r, hr, hre⟩ := hfrom e he
    apply replaceAll_eq_literalReplace
    rw [hre]
    exact hdollar r hr
  rw [hbridge, anonymizerText_eq_restore]
  have hanonperm : (es.map (fun e => e.anonymized)).Perm
      (rs.map (fun r => phOf r.entity_type)) := by
    have h2 := hperm.map (fun e => e.anonymized)
    have h3 : (rs.map (fun r => entryOf T r)).map (fun e => e.anonymized) =
        rs.map (fun r => phOf r.entity_type) := by
      rw [List.map_map]
      rfl
    rw [h3] at h2
    exact h2
  rw [restore_fold T rs hchain hbr hnd hnocc es [] hfrom
    (hanonperm.nodup_iff.mpr hnd) (fun e _ h => absurd h (List.not_mem_nil _))]
  rw [restore_complete T _ rs 0 hchain ?cover]
  · exact List.drop_zero T
  case cover =>
    intro r hr
    simp only [List.append_nil]
    exact List.mem_map.mpr ⟨entryOf T r,
      hperm.mem_iff.mpr (List.mem_map.mpr ⟨r, hr, rfl⟩), rfl⟩

/-- Claim C1 (amended): round-trip law. For every text and every
well-formed, pairwise disjoint span list over categories whose configured
transform is a literal replacement, with the collaborators substituting the
configured placeholder at each detected span, deanonymizing the anonymized
text restores the original text exactly — under the preconditions that no
placeholder literal already occurs in the text, the placeholder literals of
the detected spans are pairwise distinct (one span per category, and no two
categories sharing a placeholder, such as NAME and PERSON), every PERSON
span is at least three characters long, and no original slice contains an
ECMAScript replacement dollar pattern. -/
theorem c1_round_trip (T : Str) (rs : List AnalyzerResult)
    (hchain : chainB T 0 rs = true)
    (hlit : ∀ r ∈ rs, isLiteralCat r.entity_type = true)
    (hnd : (rs.map (fun r => phOf r.entity_type)).Nodup)
    (hperson : ∀ r ∈ rs, r.entity_type = personCat →
      3 ≤ (jsSubstring T r.start r.stop).length)
    (hnocc : ∀ r ∈ rs, occB (phOf r.entity_type) T = false)
    (hdollar : ∀ r ∈ rs, noSpecialDollar (jsSubstring T r.start r.stop) = true) :
    deanonymizeText (buildEntityMapping T (anonymizerItems rs) rs)
      (anonymizerText T 0 rs) = T := by
  cases rs with
  | nil => simp [deanonymizeText, anonymizerText, buildEntityMapping, anonymizerItems]
  | cons r0 rs0 =>
    rw [buildEntityMapping_pairs T _ hlit hnd hperson]
    rw [deanonymizeText, if_neg (by simp)]
    exact deanon_fold_restores T (r0 :: rs0) hchain
      (fun r hr => (phOf_props _ (hlit r hr)).2) hnd
      (fun r hr hocc => by
        have h2 := (occB_iff (phOf r.entity_type) T).mpr hocc
        rw [hnocc r hr] at h2
        exact Bool.false_ne_true h2)
      hdollar (sortedEntitiesOf _)
      (by rw [sortedEntitiesOf, pairs_values]; exact stableSort_perm _ _)

theorem c1_round_trip_witness :
    deanonymizeText
      (buildEntityMapping "Call Bob Smith in Paris now".data
        (anonymizerItems [⟨"PERSON".data, 5, 14, 1⟩, ⟨"LOCATION".data, 18, 23, 1⟩])
        [⟨"PERSON".data, 5, 14, 1⟩, ⟨"LOCATION".data, 18, 23, 1⟩])
      (anonymizerText "Call Bob Smith in Paris now".data 0
        [⟨"PERSON".data, 5, 14, 1⟩, ⟨"LOCATION".data, 18, 23, 1⟩]) =
    "Call Bob Smith in Paris now".data :=
  c1_round_trip "Call Bob Smith in Paris now".data
    [⟨"PERSON".data, 5, 14, 1⟩, ⟨"LOCATION".data, 18, 23, 1⟩]
    (by decide) (by decide) (by decide) (by decide) (by decide) (by decide)

/-- Claim C1 counterexample: four concrete inputs that satisfy the original
claim's stated preconditions (literal-replacement categories, well-formed
in-bounds spans, no placeholder literal occurring in the input) and on which
the round trip nevertheless fails: two spans of the same category, a PERSON
span shorter than three characters, two distinct categories (PERSON and
NAME) sharing one placeholder literal, and an original slice containing the
ECMAScript dollar pattern `$&`. -/
theorem c1_counterexample :
    (chainB "John Doe and Jane Grey".data 0
        [⟨"PERSON".data, 0, 8, 1⟩, ⟨"PERSON".data, 13, 22, 1⟩] = true ∧
     ([⟨"PERSON".data, 0, 8, 1⟩, ⟨"PERSON".data, 13, 22, 1⟩] : List AnalyzerResult).all
        (fun r => isLiteralCat r.entity_type &&
          !occB (phOf r.entity_type) "John Doe and Jane Grey".data) = true ∧
     deanonymizeText
        (buildEntityMapping "John Doe and Jane Grey".data
          (anonymizerItems [⟨"PERSON".data, 0, 8, 1⟩, ⟨"PERSON".data, 13, 22, 1⟩])
          [⟨"PERSON".data, 0, 8, 1⟩, ⟨"PERSON".data, 13, 22, 1⟩])
        (anonymizerText "John Doe and Jane Grey".data 0
          [⟨"PERSON".data, 0, 8, 1⟩, ⟨"PERSON".data, 13, 22, 1⟩]) ≠
      "John Doe and Jane Grey".data) ∧
    (chainB "Hello Al".data 0 [⟨"PERSON".data, 6, 8, 1⟩] = true ∧
     ([⟨"PERSON".data, 6, 8, 1⟩] : List AnalyzerResult).all
        (fun r => isLiteralCat r.entity_type &&
          !occB (phOf r.entity_type) "Hello Al".data) = true ∧
     deanonymizeText
        (buildEntityMapping "Hello Al".data
          (anonymizerItems [⟨"PERSON".data, 6, 8, 1⟩]) [⟨"PERSON".data, 6, 8, 1⟩])
        (anonymizerText "Hello Al".data 0 [⟨"PERSON".data, 6, 8, 1⟩]) ≠
      "Hello Al".data) ∧
    (chainB "Ann met Acme Corp".data 0
        [⟨"PERSON".data, 0, 3, 1⟩, ⟨"NAME".data, 8, 17, 1⟩] = true ∧
     ([⟨"PERSON".data, 0, 3, 1⟩, ⟨"NAME".data, 8, 17, 1⟩] : List AnalyzerResult).all
        (fun r => isLiteralCat r.entity_type &&
          !occB (phOf r.entity_type) "Ann met Acme Corp".data) = true ∧
     ([⟨"PERSON".data, 0, 3, 1⟩, ⟨"NAME".data, 8, 17, 1⟩] : List AnalyzerResult).map
        (fun r => r.entity_type) = ["PERSON".data, "NAME".data] ∧
     deanonymizeText
        (buildEntityMapping "Ann met Acme Corp".data
          (anonymizerItems [⟨"PERSON".data, 0, 3, 1⟩, ⟨"NAME".data, 8, 17, 1⟩])
          [⟨"PERSON".data, 0, 3, 1⟩, ⟨"NAME".data, 8, 17, 1⟩])
        (anonymizerText "Ann met Acme Corp".data 0
          [⟨"PERSON".data, 0, 3, 1⟩, ⟨"NAME".data, 8, 17, 1⟩]) ≠
      "Ann met Acme Corp".data) ∧
    (chainB "$& and Bob".data 0 [⟨"PERSON".data, 0, 3, 1⟩] = true ∧
     ([⟨"PERSON".data, 0, 3, 1⟩] : List AnalyzerResult).all
        (fun r => isLiteralCat r.entity_type &&
          !occB (phOf r.entity_type) "$& and Bob".data) = true ∧
     deanonymizeText
        (buildEntityMapping "$& and Bob".data
          (anonymizerItems [⟨"PERSON".data, 0, 3, 1⟩]) [⟨"PERSON".data, 0, 3, 1⟩])
        (anonymizerText "$& and Bob".data 0 [⟨"PERSON".data, 0, 3, 1⟩]) ≠
      "$& and Bob".data) := by
  decide
